import Mathlib

/-!
# srrdb terminal client: container scanner and its callers

A shallow embedding of `src/srrdb.go` (package `main`) and of the parts of
`src/srrdb/srrdb.go` (package `srrdb`) that `main` relies on.

Conventions of the embedding.

* A Go `[]byte` is a `ByteSlice`: the elements below `len` and the elements of the
  backing array between `len` and `cap`.  Go checks an index expression against
  `len` and a slice expression against `cap`, and the model keeps that difference.
* A Go `string` holding file names, paths or cookie names is a list of bytes.
* Go's `int` is taken to be 64 bits wide and buffers to be shorter than `2^62`
  bytes, so the index arithmetic of the scanner does not wrap and is done in `Nat`;
  the 32-bit accumulator of `bytesToInt` is reduced modulo `2^32` explicitly.
* A run-time panic is a value of `Fault`; functions that can panic return `Except Fault _`.
* Loops are written with explicit state.  The scan loop takes an iteration budget;
  `extractStoredFiles_fuel_sufficient` shows the budget used is never exhausted.
-/

namespace Srrdb

/-! ## Go run-time model -/

/-- A Go string of the program, as its bytes. -/
abbrev GoString := List UInt8

/-- Bytes of an ASCII string literal of the source. -/
def ascii (s : String) : GoString := s.data.map (fun c => UInt8.ofNat c.toNat)

/-- Ways in which an execution stops abnormally.  The first three are Go run-time
panics; `outOfFuel` is the exhausted iteration budget of a modelled loop. -/
inductive Fault
  | indexOutOfRange
  | sliceBoundsOutOfRange
  | nilDereference
  | outOfFuel
  deriving DecidableEq, Repr

deriving instance DecidableEq for Except

/-- A Go byte slice: `elems` are the `len` visible elements, `spare` the elements of
the backing array from `len` up to `cap`. -/
structure ByteSlice where
  elems : List UInt8
  spare : List UInt8
  deriving DecidableEq, Repr

namespace ByteSlice

/-- Go `len(s)`. -/
def len (s : ByteSlice) : Nat := s.elems.length

/-- Go `cap(s)`. -/
def cap (s : ByteSlice) : Nat := s.elems.length + s.spare.length

/-- The backing array from the first element of the slice up to its capacity. -/
def mem (s : ByteSlice) : List UInt8 := s.elems ++ s.spare

/-- Go index expression `s[i]`: panics unless `i < len(s)`. -/
def index (s : ByteSlice) (i : Nat) : Except Fault UInt8 :=
  match s.elems[i]? with
  | some b => .ok b
  | none => .error .indexOutOfRange

/-- Go slice expression `s[lo:hi]`: panics unless `lo <= hi <= cap(s)`. -/
def slice (s : ByteSlice) (lo hi : Nat) : Except Fault ByteSlice :=
  if hi ≤ s.cap ∧ lo ≤ hi then
    .ok ⟨(s.mem.drop lo).take (hi - lo), s.mem.drop hi⟩
  else .error .sliceBoundsOutOfRange

/-- A slice whose capacity equals its length. -/
def ofList (l : List UInt8) : ByteSlice := ⟨l, []⟩

end ByteSlice

/-! ## Package `main`: `src/srrdb.go` -/

/-- The record `storedFile` of the source: `name` is a string, `data` a byte slice of
which only the elements are ever read. -/
structure storedFile where
  name : GoString
  data : List UInt8
  deriving DecidableEq, Repr

/-- The loop of `bytesToInt`, `i` running from `len(b) - 1` down to `0`: the first
argument is the number of iterations left (the next index is one less), the second
the accumulator `r` of type `uint32`.  `uint32(i*8)` is reduced modulo `2^32`, and so
is the shifted value. -/
def bytesToIntLoop (b : List UInt8) : Nat → Nat → Nat
  | 0, r => r
  | i + 1, r =>
    bytesToIntLoop b i (r ||| ((b.getD i 0).toNat <<< ((i * 8) % 2 ^ 32)) % 2 ^ 32)

/-- Source function `bytesToInt`; `int(r)` of a `uint32` is `r` itself for a 64-bit `int`. -/
def bytesToInt (b : List UInt8) : Nat := bytesToIntLoop b b.length 0

/-- Source function `isValidSRR`, with the short-circuit evaluation of `||`: a later
index is read only when the earlier bytes equal `0x69`. -/
def isValidSRR (srr : ByteSlice) : Except Fault Bool := do
  let b0 ← srr.index 0
  if b0 ≠ 0x69 then pure true else
  let b1 ← srr.index 1
  if b1 ≠ 0x69 then pure true else
  let b2 ← srr.index 2
  if b2 ≠ 0x69 then pure true else
  pure false

/-- The condition of line 187, `srr[i] == 0x6A && srr[i+1] == 0x6A && srr[i+1] == 0x6A`,
with the short-circuit evaluation of `&&`; the third operand reads index `i+1` as the
source does. -/
def markerTest (srr : ByteSlice) (i : Nat) : Except Fault Bool := do
  let b0 ← srr.index i
  if b0 ≠ 0x6A then pure false else
  let b1 ← srr.index (i + 1)
  if b1 ≠ 0x6A then pure false else
  let b2 ← srr.index (i + 1)
  if b2 ≠ 0x6A then pure false else
  pure true

/-- Lines 188 to 192: the body of the `if` of the scan loop.  Returns the record that is
appended and `dataEnd`. -/
def readBlock (srr : ByteSlice) (i : Nat) : Except Fault (storedFile × Nat) := do
  let nameStart := i + 13
  let nameField ← srr.slice (i + 11) nameStart
  let nameSize := bytesToInt nameField.elems
  let dataStart := nameStart + nameSize
  let sizeField ← srr.slice (i + 7) (i + 11)
  let dataEnd := dataStart + bytesToInt sizeField.elems
  let name ← srr.slice nameStart dataStart
  let data ← srr.slice dataStart dataEnd
  pure (⟨name.elems, data.elems⟩, dataEnd)

/-- State in which the scan loop stops: the value of the variable `storedFiles` and the
reason for stopping (`none`: the loop condition became false). -/
structure ScanResult where
  storedFiles : List storedFile
  fault : Option Fault
  deriving DecidableEq, Repr

/-- The `for` loop of `extractStoredFiles` with state `i`, `storedFiles`; the first
numeric argument bounds the number of evaluations of the loop condition. -/
def scanLoop (srr : ByteSlice) : Nat → Nat → List storedFile → ScanResult
  | 0, _, storedFiles => ⟨storedFiles, some .outOfFuel⟩
  | fuel + 1, i, storedFiles =>
    if i < srr.len then
      match markerTest srr i with
      | .error p => ⟨storedFiles, some p⟩
      | .ok false => scanLoop srr fuel (i + 1) storedFiles
      | .ok true =>
        match readBlock srr i with
        | .error p => ⟨storedFiles, some p⟩
        | .ok (file, dataEnd) => scanLoop srr fuel (dataEnd - 1 + 1) (storedFiles ++ [file])
    else ⟨storedFiles, none⟩

/-- The scan of a whole buffer, from `i = 0` with no record yet. -/
def scan (srr : ByteSlice) : ScanResult := scanLoop srr (srr.len + 1) 0 []

/-- Source function `extractStoredFiles`: the records when the loop ends, the panic
otherwise. -/
def extractStoredFiles (srr : ByteSlice) : Except Fault (List storedFile) :=
  match (scan srr).fault with
  | none => .ok (scan srr).storedFiles
  | some p => .error p

/-- Go's `strings.ToLower` (standard library).  On a string of ASCII bytes it maps
`A`..`Z` to `a`..`z` byte by byte; on any other string it maps `unicode.ToLower` over
the runes, which is taken as the argument `unicodeLower`. -/
def ToLower (unicodeLower : GoString → GoString) (s : GoString) : GoString :=
  if s.all (fun c => decide (c < 0x80)) then
    s.map (fun c => if 0x41 ≤ c ∧ c ≤ 0x5A then c + 0x20 else c)
  else unicodeLower s

/-- The condition of line 237,
`strings.ToLower(file.name[len(file.name)-len(extension):]) == extension`;
the slice expression panics when its low bound is negative. -/
def extensionMatches (unicodeLower : GoString → GoString) (extension name : GoString) :
    Except Fault Bool :=
  if name.length < extension.length then .error .sliceBoundsOutOfRange
  else .ok (decide (ToLower unicodeLower (name.drop (name.length - extension.length)) = extension))

/-! ### Package `srrdb`, as far as `download` uses it -/

/-- Error values returned by package `srrdb`. -/
inductive Error
  | external (msg : String)
  | unexpectedReturnCode (code : Int)
  | notFound
  | wrongAuthentication
  | noLoginCookie
  | failedToParse
  deriving DecidableEq, Repr

set_option linter.dupNamespace false in
/-- Method `Error()` of an error value: the message text. -/
def Error.Error : Error → String
  | .external msg => msg
  | .unexpectedReturnCode code => "Unexpected return code " ++ toString code ++ "."
  | .notFound => "Not found."
  | .wrongAuthentication => "Wrong authentication?"
  | .noLoginCookie => "No login cookie found in provided cookie jar."
  | .failedToParse => "Failed to parse upload result."

/-- What the program sees of an HTTP response: the status code and the outcome of
`ioutil.ReadAll(response.Body)`. -/
structure HttpResponse where
  StatusCode : Int
  Body : Except Error ByteSlice
  deriving DecidableEq, Repr

/-- Source function `Download` of package `srrdb`; `get` is the outcome of `client.Get`
for a dirname. -/
def Download (get : GoString → Except Error HttpResponse) (dirname : GoString) :
    Except Error ByteSlice :=
  match get dirname with
  | .error err => .error err
  | .ok response =>
    if response.StatusCode ≠ 200 then .error (.unexpectedReturnCode response.StatusCode)
    else
      match response.Body with
      | .error err => .error err
      | .ok body =>
        if body.elems = ascii "The requested file does not exist." then .error .notFound
        else .ok body

/-! ### `download` -/

/-- Observable actions of `download`, in program order. -/
inductive Output
  | noDirname
  | failedToDownload (dirname : GoString) (err : Error)
  | notValidSRR (dirname : GoString)
  | stdout (bytes : List UInt8)
  | saveFile (fp : GoString) (data : List UInt8) (pruneDir : Bool)
  | extensionNotFound (dirname : GoString)
  deriving DecidableEq, Repr

/-- Why a run stopped before the end of the function. -/
inductive Stop
  | fault (p : Fault)
  | exit (code : Nat)
  deriving DecidableEq, Repr

/-- State of `download` after some statements: the outputs so far, the current value of
the variable `extension`, and the reason for stopping if the run has stopped. -/
structure Run where
  out : List Output
  extension : GoString
  stop : Option Stop
  deriving DecidableEq, Repr

/-- Lines 238 to 242: what is done with a selected member. -/
def emitMember (toStdout prunePaths : Bool) (file : storedFile) : Output :=
  if toStdout then .stdout file.data else .saveFile file.name file.data prunePaths

/-- The loop of lines 236 to 245 over the scanned members, with state `fileFound` and
the outputs so far. -/
def memberLoop (unicodeLower : GoString → GoString) (extension : GoString)
    (toStdout prunePaths : Bool) : List storedFile → Bool → List Output →
    List Output × Except Fault Bool
  | [], fileFound, out => (out, .ok fileFound)
  | file :: rest, fileFound, out =>
    match extensionMatches unicodeLower extension file.name with
    | .error p => (out, .error p)
    | .ok true =>
      memberLoop unicodeLower extension toStdout prunePaths rest true
        (out ++ [emitMember toStdout prunePaths file])
    | .ok false => memberLoop unicodeLower extension toStdout prunePaths rest fileFound out

/-- Lines 226 to 249: the branch of `download` taken for a buffer that passed the
signature test. -/
def acceptSRR (unicodeLower : GoString → GoString) (toStdout prunePaths : Bool)
    (dirname : GoString) (srr : ByteSlice) (extension : GoString) (out : List Output) : Run :=
  let extension := ToLower unicodeLower extension
  if extension = [] ∨ extension = ascii "srr" then
    if toStdout then ⟨out ++ [.stdout srr.elems], extension, none⟩
    else ⟨out ++ [.saveFile (dirname ++ ascii ".srr") srr.elems prunePaths], extension, none⟩
  else
    match extractStoredFiles srr with
    | .error p => ⟨out, extension, some (.fault p)⟩
    | .ok storedFiles =>
      match memberLoop unicodeLower extension toStdout prunePaths storedFiles false out with
      | (out, .error p) => ⟨out, extension, some (.fault p)⟩
      | (out, .ok true) => ⟨out, extension, none⟩
      | (out, .ok false) => ⟨out ++ [.extensionNotFound dirname], extension, none⟩

/-- Lines 219 to 251: one iteration of the loop of `download` over the dirnames. -/
def downloadStep (unicodeLower : GoString → GoString)
    (get : GoString → Except Error HttpResponse) (toStdout prunePaths : Bool)
    (dirname : GoString) (extension : GoString) (out : List Output) : Run :=
  match Download get dirname with
  | .error err => ⟨out ++ [.failedToDownload dirname err], extension, none⟩
  | .ok srr =>
    match isValidSRR srr with
    | .error p => ⟨out, extension, some (.fault p)⟩
    | .ok true => ⟨out ++ [.notValidSRR dirname], extension, none⟩
    | .ok false => acceptSRR unicodeLower toStdout prunePaths dirname srr extension out

/-- The loop of `download` over the dirnames. -/
def downloadLoop (unicodeLower : GoString → GoString)
    (get : GoString → Except Error HttpResponse) (toStdout prunePaths : Bool) :
    List GoString → GoString → List Output → Run
  | [], extension, out => ⟨out, extension, none⟩
  | dirname :: rest, extension, out =>
    match downloadStep unicodeLower get toStdout prunePaths dirname extension out with
    | ⟨out, extension, none⟩ => downloadLoop unicodeLower get toStdout prunePaths rest extension out
    | stopped => stopped

/-- Source function `download`. -/
def download (unicodeLower : GoString → GoString)
    (get : GoString → Except Error HttpResponse)
    (dirnames : List GoString) (extension : GoString) (toStdout prunePaths : Bool) : Run :=
  if dirnames.length = 0 then ⟨[.noDirname], extension, some (.exit 1)⟩
  else downloadLoop unicodeLower get toStdout prunePaths dirnames extension []

/-! ### Package `srrdb`: login cookie -/

/-- The fields of `http.Cookie` the program reads. -/
structure Cookie where
  Name : GoString
  Value : GoString
  deriving DecidableEq, Repr

/-- Source function `containsValidLoginCookie`. -/
def containsValidLoginCookie : List Cookie → Bool
  | [] => false
  | c :: rest => if c.Name = ascii "uid" then true else containsValidLoginCookie rest

/-- The type `url.URL`, with the fields set by `srrdbURLStruct`. -/
structure URL where
  Scheme : GoString
  Host : GoString
  Path : GoString
  deriving DecidableEq, Repr

/-- Source function `srrdbURLStruct`. -/
def srrdbURLStruct : URL := ⟨ascii "http", ascii "www.srrdb.com", ascii "/"⟩

/-- A cookie jar (`net/http/cookiejar`, standard library): the cookies handed to it per
URL, together with the rules of the library, taken as given, by which the jar keeps a
cookie for a URL (`stores`) and gives it back for a URL (`sends`): scheme and `Secure`,
expiry, domain and path. -/
structure Jar where
  entries : List (URL × List Cookie)
  stores : URL → Cookie → Bool
  sends : URL → Cookie → Bool

/-- Method `Cookies` of a jar: the cookies kept for a URL that the jar gives back for it. -/
def Jar.Cookies (jar : Jar) (u : URL) : List Cookie :=
  match jar.entries.find? (fun e => decide (e.1 = u)) with
  | some e => e.2.filter (jar.sends u)
  | none => []

/-- Method `SetCookies` of a jar: the cookies the jar keeps for the URL are recorded. -/
def Jar.SetCookies (jar : Jar) (u : URL) (cookies : List Cookie) : Jar :=
  ⟨(u, cookies.filter (jar.stores u)) :: jar.entries, jar.stores, jar.sends⟩

/-- Outcome of `client.PostForm` in `NewLoginCookieJar`: the response pointer (its
cookies when it is not nil) and the error. -/
structure PostOutcome where
  response : Option (List Cookie)
  err : Option Error
  deriving DecidableEq, Repr

/-- Source function `NewLoginCookieJar`; `post` is the outcome of `client.PostForm` and
`newJar` that of `cookiejar.New`.  The outer `Except` is a nil dereference of
`response`. -/
def NewLoginCookieJar (post : PostOutcome) (newJar : Except Error Jar) :
    Except Fault (Except Error Jar) :=
  match post.err with
  | some err =>
    if err.Error ≠ "Post /: redirect" then .ok (.error err)
    else NewLoginCookieJar.afterPost post.response newJar
  | none => NewLoginCookieJar.afterPost post.response newJar
where
  /-- Lines 127 to 135 of the package, after the error test on the POST. -/
  afterPost (response : Option (List Cookie)) (newJar : Except Error Jar) :
      Except Fault (Except Error Jar) :=
    match response with
    | none => .error .nilDereference
    | some cookies =>
      if !containsValidLoginCookie cookies then .ok (.error .wrongAuthentication)
      else
        match newJar with
        | .error err => .ok (.error err)
        | .ok jar => .ok (.ok (jar.SetCookies srrdbURLStruct cookies))

/-- Calls of `UploadStoredFile` that reach outside the program, in program order. -/
inductive Action
  | openFile (fp : GoString)
  | sendRequest (dirname : GoString) (folder : GoString) (file : List UInt8)
  deriving DecidableEq, Repr

/-- The environment of `UploadStoredFile`: the outcome of each library call whose error
the function tests. -/
structure UploadEnv where
  osOpen : GoString → Except Error Unit
  createFormFile : GoString → Except Error Unit
  copy : GoString → Except Error (List UInt8)
  newRequest : GoString → Except Error Unit
  clientDo : GoString → GoString → List UInt8 → Except Error HttpResponse
  findStringSubmatch : List UInt8 → List GoString

/-- Source function `UploadStoredFile`: the actions performed and the pair returned. -/
def UploadStoredFile (env : UploadEnv) (fp dirname folder : GoString) (jar : Jar) :
    List Action × GoString × Option Error :=
  if !containsValidLoginCookie (jar.Cookies srrdbURLStruct) then ([], [], some .noLoginCookie)
  else
    match env.osOpen fp with
    | .error err => ([.openFile fp], [], some err)
    | .ok _ =>
    match env.createFormFile fp with
    | .error err => ([.openFile fp], [], some err)
    | .ok _ =>
    match env.copy fp with
    | .error err => ([.openFile fp], [], some err)
    | .ok file =>
    match env.newRequest dirname with
    | .error err => ([.openFile fp], [], some err)
    | .ok _ =>
    match env.clientDo dirname folder file with
    | .error err => ([.openFile fp, .sendRequest dirname folder file], [], some err)
    | .ok response =>
      if response.StatusCode ≠ 200 then
        ([.openFile fp, .sendRequest dirname folder file], [],
          some (.unexpectedReturnCode response.StatusCode))
      else
        match response.Body with
        | .error err => ([.openFile fp, .sendRequest dirname folder file], [], some err)
        | .ok bytes =>
          match env.findStringSubmatch bytes.elems with
          | _ :: m :: _ => ([.openFile fp, .sendRequest dirname folder file], m, none)
          | _ => ([.openFile fp, .sendRequest dirname folder file], [], some .failedToParse)

/-! ## Well-formed containers (the format described in the comment of `extractStoredFiles`) -/

/-- Little-endian encoding of `n` on `k` bytes. -/
def leBytes : Nat → Nat → List UInt8
  | 0, _ => []
  | k + 1, n => UInt8.ofNat (n % 256) :: leBytes k (n / 256)

/-- A block of the container: what a writer of the format emits for one stored file. -/
structure Block where
  flags : List UInt8
  name : List UInt8
  data : List UInt8
  deriving DecidableEq, Repr

/-- Bytes of a stored-file block: the marker, four bytes of flags and head size, the
data size on four bytes, the name size on two bytes, the name, the data. -/
def Block.encode (b : Block) : List UInt8 :=
  [0x6A, 0x6A, 0x6A] ++ b.flags ++ leBytes 4 b.data.length ++ leBytes 2 b.name.length
    ++ b.name ++ b.data

/-- A block whose fields fit the format. -/
def Block.WellFormed (b : Block) : Prop :=
  b.flags.length = 4 ∧ b.name.length ≤ 65535 ∧ b.data.length < 2 ^ 32

instance (b : Block) : Decidable b.WellFormed := by
  unfold Block.WellFormed
  infer_instance

/-- The record a block stands for. -/
def Block.toStoredFile (b : Block) : storedFile := ⟨b.name, b.data⟩

/-- Concatenation of the encoded blocks, in order. -/
def encodeBlocks : List Block → List UInt8
  | [] => []
  | b :: rest => b.encode ++ encodeBlocks rest

/-- Unsigned little-endian value of a byte list: byte `k` has weight `256^k`. -/
def leValue : List UInt8 → Nat
  | [] => 0
  | b :: rest => b.toNat + 256 * leValue rest

/-- The bytes `[lo, hi)` of a buffer. -/
def bytesAt (buf : List UInt8) (lo hi : Nat) : List UInt8 := (buf.drop lo).take (hi - lo)

/-- Name-size field of a block header at offset `i`: the little-endian value of the bytes
`[i+11, i+13)`. -/
def nameSizeField (buf : List UInt8) (i : Nat) : Nat := leValue (bytesAt buf (i + 11) (i + 13))

/-- Data-size field of a block header at offset `i`: the little-endian value of the bytes
`[i+7, i+11)`. -/
def dataSizeField (buf : List UInt8) (i : Nat) : Nat := leValue (bytesAt buf (i + 7) (i + 11))

/-- Bytes a record takes in a container: 13 header bytes, the name, the data. -/
def storedFile.footprint (f : storedFile) : Nat := 13 + f.name.length + f.data.length

/-- The records lie in `buf` one after the other, from offset `start` on: each record has
a block offset `o` at or after the end of the region before it, its region
`[o, o + footprint)` ends inside the buffer, its name is the bytes from `o+13` and its
data the bytes that follow the name. -/
def Regions (buf : List UInt8) : Nat → List storedFile → Prop
  | _, [] => True
  | start, f :: rest =>
    ∃ o, start ≤ o ∧ o + f.footprint ≤ buf.length
      ∧ f.name = bytesAt buf (o + 13) (o + 13 + f.name.length)
      ∧ f.data = bytesAt buf (o + 13 + f.name.length) (o + f.footprint)
      ∧ Regions buf (o + f.footprint) rest

/-! ## `search` -/

/-- The type `SearchResult` of package `srrdb`. -/
structure SearchResult where
  Dirname : GoString
  DateResponse : GoString
  HasNFOResponse : GoString
  HasSRSResponse : GoString
  deriving DecidableEq, Repr

/-- The type `SearchResponse` of package `srrdb`. -/
structure SearchResponse where
  Results : List SearchResult
  ResultCount : GoString
  Warnings : List GoString
  Query : List GoString
  deriving DecidableEq, Repr

/-- Method `HasNFO` of package `srrdb`. -/
def SearchResult.HasNFO (r : SearchResult) : Bool :=
  if r.HasNFOResponse = ascii "yes" then true else false

/-- Method `HasSRS` of package `srrdb`. -/
def SearchResult.HasSRS (r : SearchResult) : Bool :=
  if r.HasSRSResponse = ascii "yes" then true else false

/-- A Go `map[string]srrdb.SearchResult`, as the list of its entries. -/
abbrev ResultMap := List (GoString × SearchResult)

/-- Map assignment `m[k] = v`: the entry for `k` is replaced or added. -/
def ResultMap.set (m : ResultMap) (k : GoString) (v : SearchResult) : ResultMap :=
  (k, v) :: m.filter (fun e => decide (e.1 ≠ k))

/-- Map index expression `m[k]`: the zero value when the key is absent. -/
def ResultMap.get (m : ResultMap) (k : GoString) : SearchResult :=
  match m.find? (fun e => decide (e.1 = k)) with
  | some e => e.2
  | none => ⟨[], [], [], []⟩

/-- Go's order on strings: bytewise lexicographic. -/
def stringLE (a b : GoString) : Prop := a.map UInt8.toNat ≤ b.map UInt8.toNat

/-- The strict order on strings. -/
def stringLT (a b : GoString) : Prop := a.map UInt8.toNat < b.map UInt8.toNat

instance : DecidableRel stringLE :=
  fun a b => inferInstanceAs (Decidable (a.map UInt8.toNat ≤ b.map UInt8.toNat))

instance : DecidableRel stringLT :=
  fun a b => inferInstanceAs (Decidable (a.map UInt8.toNat < b.map UInt8.toNat))

instance : IsTotal GoString stringLE :=
  ⟨fun a b => le_total (a.map UInt8.toNat) (b.map UInt8.toNat)⟩

instance : IsTrans GoString stringLE :=
  ⟨fun a b c h1 h2 => @le_trans (List Nat) _ (a.map UInt8.toNat) (b.map UInt8.toNat)
    (c.map UInt8.toNat) h1 h2⟩

/-- Go's `sort.Strings` (standard library): sorts into increasing order. -/
def sortStrings (keys : List GoString) : List GoString := keys.insertionSort stringLE

/-- Lines 133 to 136: the map `results` after the first loop of `search`. -/
def collectByDate (results : List SearchResult) : ResultMap :=
  results.foldl (fun m r => m.set r.DateResponse r) []

/-- Lines 137 to 141: the slice `keys` after `sort.Strings`.  `rangeOrder` gives the
entries of a map in the order in which `range` visits them, which Go leaves open. -/
def sortedKeys (rangeOrder : ResultMap → ResultMap) (m : ResultMap) : List GoString :=
  sortStrings ((rangeOrder m).map (fun e => e.2.DateResponse))

/-- The values taken by `result` in the loop of lines 143 to 153, in order. -/
def printedResults (rangeOrder : ResultMap → ResultMap) (response : SearchResponse) :
    List SearchResult :=
  (sortedKeys rangeOrder (collectByDate response.Results)).map
    (collectByDate response.Results).get

/-- Lines 145 to 152: the line printed for one result. -/
def formatResult (result : SearchResult) : GoString :=
  ascii "[" ++ result.DateResponse ++ ascii "] " ++ result.Dirname
    ++ (if result.HasNFO then ascii " [NFO]" else [])
    ++ (if result.HasSRS then ascii " [SRS]" else [])
    ++ [0x0A]

/-- What `search` writes to standard output. -/
inductive SearchOutput
  | failedToSearch (err : Error)
  | nothingFound
  | line (text : GoString)
  deriving DecidableEq, Repr

/-- Outputs of a run of `search` and the exit code if it called `os.Exit`. -/
structure SearchRun where
  out : List SearchOutput
  exit : Option Nat
  deriving DecidableEq, Repr

/-- Source function `search`; `searched` is what `srrdb.Search(query)` returned. -/
def search (rangeOrder : ResultMap → ResultMap) (searched : Except Error SearchResponse) :
    SearchRun :=
  match searched with
  | .error err => ⟨[.failedToSearch err], some 1⟩
  | .ok response =>
    if response.ResultCount = ascii "0" then ⟨[.nothingFound], some 1⟩
    else ⟨(printedResults rangeOrder response).map (fun r => .line (formatResult r)), none⟩

/-- The last result, in response order, whose `DateResponse` is `date`. -/
def lastWithDate (results : List SearchResult) (date : GoString) : Option SearchResult :=
  results.reverse.find? (fun r => decide (r.DateResponse = date))

/-! ## Theorems -/

/-! ### `bytesToInt` -/

theorem lor_eq_add_of_lt_of_dvd {lo hi k : Nat} (h : lo < 2 ^ k) (hd : 2 ^ k ∣ hi) :
    hi ||| lo = hi + lo := by
  obtain ⟨q, rfl⟩ := hd
  rw [← Nat.mul_add_lt_is_or h q]

theorem byte_lt (b : UInt8) : b.toNat < 256 := b.val.isLt

theorem bytesToInt_four (a b c d : UInt8) :
    bytesToInt [a, b, c, d] = a.toNat + 256 * (b.toNat + 256 * (c.toNat + 256 * d.toNat)) := by
  have ha := byte_lt a
  have hb := byte_lt b
  have hc := byte_lt c
  have hd := byte_lt d
  simp only [bytesToInt, bytesToIntLoop, List.length, List.getD_cons_succ, List.getD_cons_zero,
    Nat.shiftLeft_eq]
  norm_num
  have e3 : d.toNat * 16777216 % 4294967296 = d.toNat * 16777216 := Nat.mod_eq_of_lt (by omega)
  have e2 : c.toNat * 65536 % 4294967296 = c.toNat * 65536 := Nat.mod_eq_of_lt (by omega)
  have e1 : b.toNat * 256 % 4294967296 = b.toNat * 256 := Nat.mod_eq_of_lt (by omega)
  have e0 : a.toNat % 4294967296 = a.toNat := Nat.mod_eq_of_lt (by omega)
  rw [e3, e2, e1, e0]
  have s2 : d.toNat * 16777216 ||| c.toNat * 65536 = d.toNat * 16777216 + c.toNat * 65536 :=
    lor_eq_add_of_lt_of_dvd (k := 24) (by omega) (by omega)
  have s1 : (d.toNat * 16777216 + c.toNat * 65536) ||| b.toNat * 256
      = d.toNat * 16777216 + c.toNat * 65536 + b.toNat * 256 :=
    lor_eq_add_of_lt_of_dvd (k := 16) (by omega) (by omega)
  have s0 : (d.toNat * 16777216 + c.toNat * 65536 + b.toNat * 256) ||| a.toNat
      = d.toNat * 16777216 + c.toNat * 65536 + b.toNat * 256 + a.toNat :=
    lor_eq_add_of_lt_of_dvd (k := 8) (by omega) (by omega)
  rw [s2, s1, s0]
  omega

theorem bytesToIntLoop_append (b : List UInt8) (x : UInt8) :
    ∀ n r, n ≤ b.length → bytesToIntLoop (b ++ [x]) n r = bytesToIntLoop b n r := by
  intro n
  induction n with
  | zero => intro r _; rfl
  | succ n ih =>
    intro r hn
    simp only [bytesToIntLoop]
    rw [List.getD_append _ _ _ _ (by omega)]
    exact ih _ (by omega)

theorem bytesToInt_append_zero (b : List UInt8) :
    bytesToInt (b ++ [0]) = bytesToInt b := by
  simp only [bytesToInt, List.length_append, List.length_singleton, bytesToIntLoop]
  rw [bytesToIntLoop_append b 0 _ _ (le_refl _)]
  simp

theorem bytesToInt_three (a b c : UInt8) :
    bytesToInt [a, b, c] = a.toNat + 256 * (b.toNat + 256 * c.toNat) := by
  have h := bytesToInt_append_zero [a, b, c]
  have h4 := bytesToInt_four a b c 0
  simp only [List.cons_append, List.nil_append] at h
  rw [← h, h4]; simp

theorem bytesToInt_two (a b : UInt8) : bytesToInt [a, b] = a.toNat + 256 * b.toNat := by
  have h := bytesToInt_append_zero [a, b]
  have h3 := bytesToInt_three a b 0
  simp only [List.cons_append, List.nil_append] at h
  rw [← h, h3]; simp

theorem bytesToInt_one (a : UInt8) : bytesToInt [a] = a.toNat := by
  have h := bytesToInt_append_zero [a]
  have h2 := bytesToInt_two a 0
  simp only [List.cons_append, List.nil_append] at h
  rw [← h, h2]; simp

/-- C5: for a byte slice of length 0 to 4, `bytesToInt` is the unsigned little-endian
value, the sum over `k < len(b)` of `b[k] * 256^k`; in particular it is `1` on
`[0x01,0,0,0]`, `65535` on `[0xFF,0xFF]` and `0` on the empty slice. -/
theorem bytesToInt_little_endian (b : List UInt8) (h : b.length ≤ 4) :
    bytesToInt b = ((List.range b.length).map (fun k => (b.getD k 0).toNat * 256 ^ k)).sum
      ∧ bytesToInt [0x01, 0x00, 0x00, 0x00] = 1
      ∧ bytesToInt [0xFF, 0xFF] = 65535
      ∧ bytesToInt [] = 0 := by
  refine ⟨?_, by decide, by decide, by decide⟩
  match b, h with
  | [], _ => rfl
  | [a], _ => rw [bytesToInt_one]; simp [List.range_succ]
  | [a, b], _ => rw [bytesToInt_two]; simp [List.range_succ]; omega
  | [a, b, c], _ => rw [bytesToInt_three]; simp [List.range_succ]; omega
  | [a, b, c, d], _ => rw [bytesToInt_four]; simp [List.range_succ]; omega
  | _ :: _ :: _ :: _ :: _ :: _, h => simp at h

theorem bytesToInt_little_endian_witness :
    [(0x34 : UInt8), 0x12].length ≤ 4 ∧
    bytesToInt [0x34, 0x12]
      = ((List.range [(0x34 : UInt8), 0x12].length).map
          (fun k => ([(0x34 : UInt8), 0x12].getD k 0).toNat * 256 ^ k)).sum :=
  ⟨by decide, (bytesToInt_little_endian [0x34, 0x12] (by decide)).1⟩


/-! ### `isValidSRR` -/

theorem isValidSRR_cons3 (a b c : UInt8) (rest spare : List UInt8) :
    isValidSRR ⟨a :: b :: c :: rest, spare⟩ = .ok (decide ([a, b, c] ≠ [0x69, 0x69, 0x69])) := by
  simp only [isValidSRR, ByteSlice.index, bind, Except.bind, pure, Except.pure]
  by_cases ha : a = 0x69 <;> by_cases hb : b = 0x69 <;> by_cases hc : c = 0x69 <;>
    simp [ha, hb, hc]

theorem isValidSRR_of_three_le (s : ByteSlice) (hs : 3 ≤ s.len) :
    isValidSRR s = .ok (decide (s.elems.take 3 ≠ [0x69, 0x69, 0x69])) := by
  match s, hs with
  | ⟨a :: b :: c :: rest, spare⟩, _ => rw [isValidSRR_cons3]; simp
  | ⟨[], _⟩, hs => simp [ByteSlice.len] at hs
  | ⟨[_], _⟩, hs => simp [ByteSlice.len] at hs
  | ⟨[_, _], _⟩, hs => simp [ByteSlice.len] at hs

/-- C6: on a buffer of at least three bytes `isValidSRR` returns true exactly when the
first three bytes are not `0x69 0x69 0x69` (false exactly when they are), and two
buffers with the same first three bytes get the same result. -/
theorem isValidSRR_iff_signature_mismatch (srr : ByteSlice) (h : 3 ≤ srr.len) :
    isValidSRR srr = .ok (decide (srr.elems.take 3 ≠ [0x69, 0x69, 0x69]))
      ∧ ∀ other : ByteSlice, 3 ≤ other.len → other.elems.take 3 = srr.elems.take 3 →
          isValidSRR other = isValidSRR srr := by
  refine ⟨isValidSRR_of_three_le srr h, ?_⟩
  intro other ho he
  rw [isValidSRR_of_three_le other ho, isValidSRR_of_three_le srr h, he]

theorem isValidSRR_iff_signature_mismatch_witness :
    3 ≤ (ByteSlice.mk [0x69, 0x69, 0x69, 0x00] []).len ∧
    isValidSRR ⟨[0x69, 0x69, 0x69, 0x00], []⟩ = .ok false ∧
    isValidSRR ⟨[0x69, 0x6A, 0x69, 0x00], []⟩ = .ok true :=
  ⟨by decide,
   (isValidSRR_iff_signature_mismatch ⟨[0x69, 0x69, 0x69, 0x00], []⟩ (by decide)).1,
   (isValidSRR_iff_signature_mismatch ⟨[0x69, 0x6A, 0x69, 0x00], []⟩ (by decide)).1⟩


/-! ### Slices and the fields of a block -/

theorem bytesToInt_eq_leValue (b : List UInt8) (h : b.length ≤ 4) :
    bytesToInt b = leValue b := by
  match b, h with
  | [], _ => rfl
  | [a], _ => rw [bytesToInt_one]; simp [leValue]
  | [a, b], _ => rw [bytesToInt_two]; simp [leValue]
  | [a, b, c], _ => rw [bytesToInt_three]; simp [leValue]
  | [a, b, c, d], _ => rw [bytesToInt_four]; simp [leValue]
  | _ :: _ :: _ :: _ :: _ :: _, h => simp at h

theorem bytesToInt_leBytes_two (n : Nat) (h : n ≤ 65535) : bytesToInt (leBytes 2 n) = n := by
  simp only [leBytes]
  rw [bytesToInt_two]
  show n % 256 % 256 + 256 * (n / 256 % 256 % 256) = n
  omega

theorem bytesToInt_leBytes_four (n : Nat) (h : n < 2 ^ 32) : bytesToInt (leBytes 4 n) = n := by
  simp only [leBytes]
  rw [bytesToInt_four]
  show n % 256 % 256 + 256 * (n / 256 % 256 % 256
    + 256 * (n / 256 / 256 % 256 % 256 + 256 * (n / 256 / 256 / 256 % 256 % 256))) = n
  omega

theorem leBytes_length (k n : Nat) : (leBytes k n).length = k := by
  induction k generalizing n with
  | zero => rfl
  | succ k ih => simp [leBytes, ih]

/-- A slice expression whose bounds delimit the middle part of the backing array. -/
theorem slice_of_mem_eq (s : ByteSlice) (a b c : List UInt8) (lo hi : Nat)
    (hm : s.mem = a ++ b ++ c) (hlo : lo = a.length) (hhi : hi = a.length + b.length) :
    s.slice lo hi = .ok ⟨b, c⟩ := by
  have hcap : s.cap = a.length + b.length + c.length := by
    have := congrArg List.length hm
    simp only [ByteSlice.mem, List.length_append] at this
    simp only [ByteSlice.cap]
    omega
  subst hlo hhi
  have h1 : a.length + b.length ≤ s.cap ∧ a.length ≤ a.length + b.length := by omega
  simp only [ByteSlice.slice, h1, and_self, if_true, hm]
  congr 2
  · rw [List.append_assoc, List.drop_left]
    simp
  · rw [← List.length_append, List.drop_left]

/-- A slice expression that stays below `len` reads the visible elements. -/
theorem slice_elems_of_le_len (s : ByteSlice) (lo hi : Nat) (h1 : lo ≤ hi) (h2 : hi ≤ s.len) :
    ∃ t, s.slice lo hi = .ok t ∧ t.elems = (s.elems.drop lo).take (hi - lo) := by
  have hc : hi ≤ s.cap ∧ lo ≤ hi := by
    simp only [ByteSlice.len, ByteSlice.cap] at *
    omega
  refine ⟨_, by simp only [ByteSlice.slice, hc, and_self, if_true]; rfl, ?_⟩
  simp only [ByteSlice.mem, ByteSlice.len] at *
  rw [List.drop_append_of_le_length (by omega), List.take_append_of_le_length]
  simp
  omega

theorem markerTest_eq_true_iff (srr : ByteSlice) (i : Nat) :
    markerTest srr i = .ok true ↔ srr.elems[i]? = some 0x6A ∧ srr.elems[i + 1]? = some 0x6A := by
  simp only [markerTest, ByteSlice.index, bind, Except.bind, pure, Except.pure]
  rcases h0 : srr.elems[i]? with _ | b0
  · simp
  · by_cases e0 : b0 = 0x6A
    · rcases h1 : srr.elems[i + 1]? with _ | b1
      · simp [e0]
      · by_cases e1 : b1 = 0x6A <;> simp [e0, e1]
    · simp [e0]

theorem markerTest_of_ne (srr : ByteSlice) (i : Nat) (b : UInt8)
    (h : srr.elems[i]? = some b) (hb : b ≠ 0x6A) : markerTest srr i = .ok false := by
  simp [markerTest, ByteSlice.index, bind, Except.bind, pure, Except.pure, h, hb]

theorem markerTest_error (srr : ByteSlice) (i : Nat) (p : Fault)
    (h : markerTest srr i = .error p) : p = .indexOutOfRange := by
  simp only [markerTest, ByteSlice.index, bind, Except.bind, pure, Except.pure] at h
  rcases h0 : srr.elems[i]? with _ | b0
  · simp [h0] at h; exact h.symm
  · by_cases e0 : b0 = 0x6A
    · rcases h1 : srr.elems[i + 1]? with _ | b1
      · simp [h0, h1, e0] at h; exact h.symm
      · by_cases e1 : b1 = 0x6A <;> simp [h0, h1, e0, e1] at h
    · simp [h0, e0] at h

theorem slice_error (s : ByteSlice) (lo hi : Nat) (p : Fault)
    (h : s.slice lo hi = .error p) : p = .sliceBoundsOutOfRange := by
  unfold ByteSlice.slice at h
  split at h
  · cases h
  · cases h; rfl

theorem readBlock_error (srr : ByteSlice) (i : Nat) (p : Fault)
    (h : readBlock srr i = .error p) : p = .sliceBoundsOutOfRange := by
  simp only [readBlock, bind, Except.bind, pure, Except.pure] at h
  rcases h1 : srr.slice (i + 11) (i + 13) with q | nameField
  · rw [h1] at h; cases h; exact slice_error _ _ _ _ h1
  · rw [h1] at h; simp only at h
    rcases h2 : srr.slice (i + 7) (i + 11) with q | sizeField
    · rw [h2] at h; cases h; exact slice_error _ _ _ _ h2
    · rw [h2] at h; simp only at h
      rcases h3 : srr.slice (i + 13) (i + 13 + bytesToInt nameField.elems) with q | name
      · rw [h3] at h; cases h; exact slice_error _ _ _ _ h3
      · rw [h3] at h; simp only at h
        rcases h4 : srr.slice (i + 13 + bytesToInt nameField.elems)
            (i + 13 + bytesToInt nameField.elems + bytesToInt sizeField.elems) with q | data
        · rw [h4] at h; cases h; exact slice_error _ _ _ _ h4
        · rw [h4] at h; cases h

theorem readBlock_dataEnd_ge (srr : ByteSlice) (i : Nat) (file : storedFile) (dataEnd : Nat)
    (h : readBlock srr i = .ok (file, dataEnd)) : i + 13 ≤ dataEnd := by
  simp only [readBlock, bind, Except.bind, pure, Except.pure] at h
  rcases h1 : srr.slice (i + 11) (i + 13) with q | nameField
  · rw [h1] at h; cases h
  · rw [h1] at h; simp only at h
    rcases h2 : srr.slice (i + 7) (i + 11) with q | sizeField
    · rw [h2] at h; cases h
    · rw [h2] at h; simp only at h
      rcases h3 : srr.slice (i + 13) (i + 13 + bytesToInt nameField.elems) with q | name
      · rw [h3] at h; cases h
      · rw [h3] at h; simp only at h
        rcases h4 : srr.slice (i + 13 + bytesToInt nameField.elems)
            (i + 13 + bytesToInt nameField.elems + bytesToInt sizeField.elems) with q | data
        · rw [h4] at h; cases h
        · rw [h4] at h
          simp only [Except.ok.injEq, Prod.mk.injEq] at h
          omega


/-! ### The scan loop -/

theorem scanLoop_succ_of_ge (srr : ByteSlice) (fuel i : Nat) (acc : List storedFile)
    (h : ¬ i < srr.len) : scanLoop srr (fuel + 1) i acc = ⟨acc, none⟩ := by
  simp [scanLoop, h]

theorem scanLoop_succ_of_miss (srr : ByteSlice) (fuel i : Nat) (acc : List storedFile)
    (h : i < srr.len) (hm : markerTest srr i = .ok false) :
    scanLoop srr (fuel + 1) i acc = scanLoop srr fuel (i + 1) acc := by
  simp [scanLoop, h, hm]

theorem scanLoop_succ_of_hit (srr : ByteSlice) (fuel i : Nat) (acc : List storedFile)
    (file : storedFile) (dataEnd : Nat)
    (h : i < srr.len) (hm : markerTest srr i = .ok true)
    (hr : readBlock srr i = .ok (file, dataEnd)) :
    scanLoop srr (fuel + 1) i acc = scanLoop srr fuel dataEnd (acc ++ [file]) := by
  have hd := readBlock_dataEnd_ge srr i file dataEnd hr
  have e : dataEnd - 1 + 1 = dataEnd := by omega
  simp [scanLoop, h, hm, hr, e]

/-- The records found from a cursor on are appended to those found before. -/
theorem scanLoop_acc (srr : ByteSlice) (fuel : Nat) :
    ∀ (i : Nat) (acc : List storedFile),
      scanLoop srr fuel i acc
        = ⟨acc ++ (scanLoop srr fuel i []).storedFiles, (scanLoop srr fuel i []).fault⟩ := by
  induction fuel with
  | zero => intro i acc; simp [scanLoop]
  | succ fuel ih =>
    intro i acc
    by_cases h : i < srr.len
    · rcases hm : markerTest srr i with p | b
      · simp [scanLoop, h, hm]
      · cases b
        · rw [scanLoop_succ_of_miss _ _ _ _ h hm, scanLoop_succ_of_miss _ _ _ _ h hm]
          exact ih _ _
        · rcases hr : readBlock srr i with p | ⟨file, dataEnd⟩
          · simp [scanLoop, h, hm, hr]
          · rw [scanLoop_succ_of_hit _ _ _ _ _ _ h hm hr, scanLoop_succ_of_hit _ _ _ _ _ _ h hm hr]
            rw [ih dataEnd (acc ++ [file]), ih dataEnd ([] ++ [file])]
            simp
    · simp [scanLoop, h]

/-- With a budget above the distance to the end of the buffer the loop does not stop for
lack of budget: the cursor advances at every iteration. -/
theorem scanLoop_fault_ne_outOfFuel (srr : ByteSlice) (fuel : Nat) :
    ∀ (i : Nat) (acc : List storedFile), srr.len - i < fuel →
      (scanLoop srr fuel i acc).fault ≠ some .outOfFuel := by
  induction fuel with
  | zero => intro i acc h; omega
  | succ fuel ih =>
    intro i acc hf
    by_cases h : i < srr.len
    · rcases hm : markerTest srr i with p | b
      · have := markerTest_error _ _ _ hm
        simp [scanLoop, h, hm, this]
      · cases b
        · rw [scanLoop_succ_of_miss _ _ _ _ h hm]
          exact ih _ _ (by omega)
        · rcases hr : readBlock srr i with p | ⟨file, dataEnd⟩
          · have := readBlock_error _ _ _ hr
            simp [scanLoop, h, hm, hr, this]
          · rw [scanLoop_succ_of_hit _ _ _ _ _ _ h hm hr]
            have := readBlock_dataEnd_ge _ _ _ _ hr
            exact ih _ _ (by omega)
    · simp [scanLoop, h]

/-- The result of the loop does not depend on the budget once the budget exceeds the
distance to the end of the buffer. -/
theorem scanLoop_fuel_irrelevant (srr : ByteSlice) (n : Nat) :
    ∀ (m i : Nat) (acc : List storedFile), srr.len - i < n → srr.len - i < m →
      scanLoop srr n i acc = scanLoop srr m i acc := by
  induction n with
  | zero => intro m i acc h; omega
  | succ n ih =>
    intro m i acc hn hm'
    obtain ⟨m, rfl⟩ : ∃ k, m = k + 1 := ⟨m - 1, by omega⟩
    by_cases h : i < srr.len
    · rcases hm : markerTest srr i with p | b
      · simp [scanLoop, h, hm]
      · cases b
        · rw [scanLoop_succ_of_miss _ _ _ _ h hm, scanLoop_succ_of_miss _ _ _ _ h hm]
          exact ih _ _ _ (by omega) (by omega)
        · rcases hr : readBlock srr i with p | ⟨file, dataEnd⟩
          · simp [scanLoop, h, hm, hr]
          · rw [scanLoop_succ_of_hit _ _ _ _ _ _ h hm hr, scanLoop_succ_of_hit _ _ _ _ _ _ h hm hr]
            have := readBlock_dataEnd_ge _ _ _ _ hr
            exact ih _ _ _ (by omega) (by omega)
    · simp [scanLoop, h]

/-- The budget `len(srr) + 1` used by `extractStoredFiles` is never exhausted: the
function returns or panics. -/
theorem extractStoredFiles_fuel_sufficient (srr : ByteSlice) :
    extractStoredFiles srr ≠ .error .outOfFuel := by
  have h := scanLoop_fault_ne_outOfFuel srr (srr.len + 1) 0 [] (by omega)
  unfold extractStoredFiles
  rcases hf : (scan srr).fault with _ | p
  · simp
  · simp only [ne_eq, Except.error.injEq]
    rintro rfl
    exact h hf

theorem extractStoredFiles_eq_ok_iff (srr : ByteSlice) (files : List storedFile) :
    extractStoredFiles srr = .ok files ↔ scan srr = ⟨files, none⟩ := by
  unfold extractStoredFiles
  rcases hs : scan srr with ⟨fs, _ | p⟩
  · simp
  · simp


/-! ### Round trip over well-formed containers -/

theorem Block.encode_length (b : Block) (h : b.WellFormed) :
    b.encode.length = 13 + b.name.length + b.data.length := by
  simp only [Block.encode, List.length_append, leBytes_length, h.1, List.length_cons,
    List.length_nil]

theorem markerTest_at_block (lead rest spare : List UInt8) (b : Block) :
    markerTest ⟨lead ++ b.encode ++ rest, spare⟩ lead.length = .ok true := by
  rw [markerTest_eq_true_iff]
  constructor
  · rw [List.append_assoc, List.getElem?_append_right (le_refl _)]
    simp [Block.encode]
  · rw [List.append_assoc, List.getElem?_append_right (by omega)]
    simp [Block.encode]

theorem readBlock_at_block (lead rest spare : List UInt8) (b : Block) (h : b.WellFormed) :
    readBlock ⟨lead ++ b.encode ++ rest, spare⟩ lead.length
      = .ok (b.toStoredFile, lead.length + b.encode.length) := by
  obtain ⟨hf, hn, hd⟩ := h
  have s1 := slice_of_mem_eq ⟨lead ++ b.encode ++ rest, spare⟩
    (lead ++ [0x6A, 0x6A, 0x6A] ++ b.flags ++ leBytes 4 b.data.length)
    (leBytes 2 b.name.length) (b.name ++ b.data ++ rest ++ spare)
    (lead.length + 11) (lead.length + 13)
    (by simp [ByteSlice.mem, Block.encode, List.append_assoc])
    (by simp [leBytes_length, hf]) (by simp [leBytes_length, hf])
  have s2 := slice_of_mem_eq ⟨lead ++ b.encode ++ rest, spare⟩
    (lead ++ [0x6A, 0x6A, 0x6A] ++ b.flags)
    (leBytes 4 b.data.length) (leBytes 2 b.name.length ++ b.name ++ b.data ++ rest ++ spare)
    (lead.length + 7) (lead.length + 11)
    (by simp [ByteSlice.mem, Block.encode, List.append_assoc])
    (by simp [hf]) (by simp [leBytes_length, hf])
  have s3 := slice_of_mem_eq ⟨lead ++ b.encode ++ rest, spare⟩
    (lead ++ [0x6A, 0x6A, 0x6A] ++ b.flags ++ leBytes 4 b.data.length ++ leBytes 2 b.name.length)
    b.name (b.data ++ rest ++ spare)
    (lead.length + 13) (lead.length + 13 + b.name.length)
    (by simp [ByteSlice.mem, Block.encode, List.append_assoc])
    (by simp [leBytes_length, hf]) (by simp [leBytes_length, hf])
  have s4 := slice_of_mem_eq ⟨lead ++ b.encode ++ rest, spare⟩
    (lead ++ [0x6A, 0x6A, 0x6A] ++ b.flags ++ leBytes 4 b.data.length ++ leBytes 2 b.name.length
      ++ b.name)
    b.data (rest ++ spare)
    (lead.length + 13 + b.name.length) (lead.length + 13 + b.name.length + b.data.length)
    (by simp [ByteSlice.mem, Block.encode, List.append_assoc])
    (by simp [leBytes_length, hf]; omega) (by simp [leBytes_length, hf]; omega)
  simp only [readBlock, bind, Except.bind, pure, Except.pure, s1, s2,
    bytesToInt_leBytes_two _ hn, bytesToInt_leBytes_four _ hd, s3, s4]
  rw [Block.encode_length b ⟨hf, hn, hd⟩]
  simp only [Block.toStoredFile, Except.ok.injEq, Prod.mk.injEq, true_and]
  omega

/-- Bytes other than `0x6A` are passed over one at a time. -/
theorem scanLoop_skip (skipped : List UInt8) (hs : ∀ x ∈ skipped, x ≠ 0x6A) :
    ∀ (lead rest spare : List UInt8) (fuel : Nat) (acc : List storedFile),
      scanLoop ⟨lead ++ skipped ++ rest, spare⟩ (fuel + skipped.length) lead.length acc
        = scanLoop ⟨lead ++ skipped ++ rest, spare⟩ fuel (lead.length + skipped.length) acc := by
  induction skipped with
  | nil => intro lead rest spare fuel acc; simp
  | cons x xs ih =>
    intro lead rest spare fuel acc
    have hx : x ≠ 0x6A := hs x (List.mem_cons_self _ _)
    have hlt : lead.length < (ByteSlice.mk (lead ++ x :: xs ++ rest) spare).len := by
      simp [ByteSlice.len]
    have hget : (ByteSlice.mk (lead ++ x :: xs ++ rest) spare).elems[lead.length]? = some x := by
      show (lead ++ x :: xs ++ rest)[lead.length]? = some x
      rw [List.append_assoc, List.getElem?_append_right (le_refl _)]
      simp
    have hm := markerTest_of_ne _ _ _ hget hx
    have e : fuel + (x :: xs).length = (fuel + xs.length) + 1 := by simp; omega
    rw [e, scanLoop_succ_of_miss _ _ _ _ hlt hm]
    have ih2 := ih (fun y hy => hs y (List.mem_cons_of_mem _ hy)) (lead ++ [x]) rest spare fuel acc
    simp only [List.append_assoc, List.singleton_append, List.length_append,
      List.length_singleton, List.cons_append, List.nil_append] at ih2
    simp only [List.append_assoc, List.cons_append, List.length_cons]
    rw [ih2]
    congr 1
    omega

/-- From the start of a sequence of well-formed blocks the loop appends one record per
block and ends at the end of the buffer. -/
theorem scanLoop_blocks (blocks : List Block) (hwf : ∀ b ∈ blocks, b.WellFormed) :
    ∀ (lead spare : List UInt8) (fuel : Nat) (acc : List storedFile),
      (encodeBlocks blocks).length < fuel →
      scanLoop ⟨lead ++ encodeBlocks blocks, spare⟩ fuel lead.length acc
        = ⟨acc ++ blocks.map Block.toStoredFile, none⟩ := by
  induction blocks with
  | nil =>
    intro lead spare fuel acc hf
    obtain ⟨fuel, rfl⟩ : ∃ k, fuel = k + 1 := ⟨fuel - 1, by omega⟩
    rw [scanLoop_succ_of_ge]
    · simp
    · simp [ByteSlice.len, encodeBlocks]
  | cons b bs ih =>
    intro lead spare fuel acc hf
    have hb : b.WellFormed := hwf b (List.mem_cons_self _ _)
    have hlen := Block.encode_length b hb
    simp only [encodeBlocks, List.length_append] at hf
    obtain ⟨fuel, rfl⟩ : ∃ k, fuel = k + 1 := ⟨fuel - 1, by omega⟩
    have hm := markerTest_at_block lead (encodeBlocks bs) spare b
    have hr := readBlock_at_block lead (encodeBlocks bs) spare b hb
    have hlt : lead.length < (ByteSlice.mk (lead ++ b.encode ++ encodeBlocks bs) spare).len := by
      simp only [ByteSlice.len, List.length_append]
      omega
    simp only [encodeBlocks]
    rw [← List.append_assoc, scanLoop_succ_of_hit _ _ _ _ _ _ hlt hm hr]
    have ih2 := ih (fun x hx => hwf x (List.mem_cons_of_mem _ hx)) (lead ++ b.encode) spare fuel
      (acc ++ [b.toStoredFile]) (by omega)
    simp only [List.length_append] at ih2
    rw [ih2]
    simp

/-- C1: round trip.  For a lead-in without any `0x6A` byte followed by the encodings of
well-formed blocks (four arbitrary flag and head-size bytes, name of at most 65535
bytes, data of fewer than `2^32` bytes, whatever bytes the names and the data hold),
`extractStoredFiles` returns exactly the (name, data) records of the blocks, in order. -/
theorem extractStoredFiles_roundtrip (lead : List UInt8) (blocks : List Block)
    (spare : List UInt8) (hlead : ∀ x ∈ lead, x ≠ 0x6A) (hwf : ∀ b ∈ blocks, b.WellFormed) :
    extractStoredFiles ⟨lead ++ encodeBlocks blocks, spare⟩
      = .ok (blocks.map Block.toStoredFile) := by
  rw [extractStoredFiles_eq_ok_iff]
  unfold scan
  have hs := scanLoop_skip lead hlead [] (encodeBlocks blocks) spare
    ((encodeBlocks blocks).length + 1) []
  simp only [List.nil_append, List.length_nil, Nat.zero_add] at hs
  have e : (ByteSlice.mk (lead ++ encodeBlocks blocks) spare).len + 1
      = (encodeBlocks blocks).length + 1 + lead.length := by
    simp only [ByteSlice.len, List.length_append]
    omega
  rw [e, hs, scanLoop_blocks blocks hwf lead spare _ [] (by omega)]
  simp

/-- The single-block container of the specification, the container of two consecutive
blocks, and a container whose name and data hold `0x6A 0x6A` sequences. -/
theorem extractStoredFiles_roundtrip_witness :
    extractStoredFiles ⟨[0x6A, 0x6A, 0x6A, 0, 0, 0, 0, 5, 0, 0, 0, 3, 0,
        0x61, 0x62, 0x63, 1, 2, 3, 4, 5], []⟩
      = .ok [⟨[0x61, 0x62, 0x63], [1, 2, 3, 4, 5]⟩]
    ∧ extractStoredFiles ⟨[0x69, 0x69, 0x69, 0x00]
        ++ encodeBlocks [⟨[0, 0x80, 0x12, 0], [0x6A, 0x6A, 0x6A], [0x6A, 0x6A, 0, 0x6A, 0x6A]⟩,
                         ⟨[1, 2, 3, 4], [0x78], []⟩], [0x6A, 0x6A]⟩
      = .ok [⟨[0x6A, 0x6A, 0x6A], [0x6A, 0x6A, 0, 0x6A, 0x6A]⟩, ⟨[0x78], []⟩] :=
  ⟨extractStoredFiles_roundtrip []
      [⟨[0, 0, 0, 0], [0x61, 0x62, 0x63], [1, 2, 3, 4, 5]⟩] []
      (by decide) (by decide),
   extractStoredFiles_roundtrip [0x69, 0x69, 0x69, 0x00]
      [⟨[0, 0x80, 0x12, 0], [0x6A, 0x6A, 0x6A], [0x6A, 0x6A, 0, 0x6A, 0x6A]⟩,
       ⟨[1, 2, 3, 4], [0x78], []⟩] [0x6A, 0x6A]
      (by decide) (by decide)⟩


/-! ### Field layout of the first matched block -/

theorem markerTest_ok_of_lt (srr : ByteSlice) (i : Nat) (h : i + 1 < srr.len) :
    ∃ b, markerTest srr i = .ok b := by
  simp only [ByteSlice.len] at h
  have h0 : srr.elems[i]? = some (srr.elems[i]) := List.getElem?_eq_getElem (by omega)
  have h1 : srr.elems[i + 1]? = some (srr.elems[i + 1]) := List.getElem?_eq_getElem h
  simp only [markerTest, ByteSlice.index, bind, Except.bind, pure, Except.pure, h0, h1]
  by_cases e0 : srr.elems[i] = 0x6A
  · by_cases e1 : srr.elems[i + 1] = 0x6A <;> simp [e0, e1]
  · simp [e0]

theorem markerTest_hit_lt_len (srr : ByteSlice) (i : Nat) (h : markerTest srr i = .ok true) :
    i + 1 < srr.len := by
  rw [markerTest_eq_true_iff] at h
  have := h.2
  rcases Nat.lt_or_ge (i + 1) srr.elems.length with hlt | hge
  · exact hlt
  · rw [List.getElem?_eq_none hge] at this
    cases this

/-- Offsets at which the marker test fails are passed over one at a time. -/
theorem scanLoop_skip_misses (srr : ByteSlice) (i : Nat)
    (hmiss : ∀ j, j < i → markerTest srr j = .ok false) (hlen : i ≤ srr.len) :
    ∀ k, k ≤ i → ∀ (fuel : Nat) (acc : List storedFile),
      scanLoop srr (fuel + k) 0 acc = scanLoop srr fuel k acc := by
  intro k
  induction k with
  | zero => intro _ fuel acc; rfl
  | succ k ih =>
    intro hk fuel acc
    have e : fuel + (k + 1) = (fuel + 1) + k := by omega
    rw [e, ih (by omega) (fuel + 1) acc]
    exact scanLoop_succ_of_miss _ _ _ _ (by omega) (hmiss k (by omega))

theorem readBlock_of_fit (srr : ByteSlice) (i : Nat)
    (hfit : i + 13 + nameSizeField srr.elems i + dataSizeField srr.elems i ≤ srr.len) :
    readBlock srr i
      = .ok (⟨bytesAt srr.elems (i + 13) (i + 13 + nameSizeField srr.elems i),
              bytesAt srr.elems (i + 13 + nameSizeField srr.elems i)
                (i + 13 + nameSizeField srr.elems i + dataSizeField srr.elems i)⟩,
             i + 13 + nameSizeField srr.elems i + dataSizeField srr.elems i) := by
  obtain ⟨t1, s1, e1⟩ := slice_elems_of_le_len srr (i + 11) (i + 13) (by omega) (by omega)
  obtain ⟨t2, s2, e2⟩ := slice_elems_of_le_len srr (i + 7) (i + 11) (by omega) (by omega)
  have l1 : t1.elems.length ≤ 4 := by
    rw [e1, List.length_take]; omega
  have l2 : t2.elems.length ≤ 4 := by
    rw [e2, List.length_take]; omega
  have v1 : bytesToInt t1.elems = nameSizeField srr.elems i := by
    rw [bytesToInt_eq_leValue _ l1, e1]; rfl
  have v2 : bytesToInt t2.elems = dataSizeField srr.elems i := by
    rw [bytesToInt_eq_leValue _ l2, e2]; rfl
  obtain ⟨t3, s3, e3⟩ := slice_elems_of_le_len srr (i + 13)
    (i + 13 + nameSizeField srr.elems i) (by omega) (by omega)
  obtain ⟨t4, s4, e4⟩ := slice_elems_of_le_len srr (i + 13 + nameSizeField srr.elems i)
    (i + 13 + nameSizeField srr.elems i + dataSizeField srr.elems i) (by omega) (by omega)
  simp only [readBlock, bind, Except.bind, pure, Except.pure, s1, s2, v1, v2, s3, s4, e3, e4,
    bytesAt]

/-- C2: field layout.  At the smallest offset `i` where the marker test of the scanner
succeeds, with the name size read from bytes `[i+11, i+13)` and the data size from bytes
`[i+7, i+11)`, both little-endian, and the block lying inside the buffer, the first
record the scan appends, and the first record of every list `extractStoredFiles`
returns, has the bytes `[i+13, i+13+nameSize)` as name and the bytes
`[i+13+nameSize, i+13+nameSize+dataSize)` as data, the data having exactly `dataSize`
bytes. -/
theorem extractStoredFiles_first_record_layout (srr : ByteSlice) (i : Nat)
    (hhit : markerTest srr i = .ok true)
    (hfirst : ∀ j, j < i → markerTest srr j ≠ .ok true)
    (hfit : i + 13 + nameSizeField srr.elems i + dataSizeField srr.elems i ≤ srr.len) :
    (scan srr).storedFiles.head?
        = some ⟨bytesAt srr.elems (i + 13) (i + 13 + nameSizeField srr.elems i),
                bytesAt srr.elems (i + 13 + nameSizeField srr.elems i)
                  (i + 13 + nameSizeField srr.elems i + dataSizeField srr.elems i)⟩
      ∧ (∀ files, extractStoredFiles srr = .ok files →
          files.head?
            = some ⟨bytesAt srr.elems (i + 13) (i + 13 + nameSizeField srr.elems i),
                    bytesAt srr.elems (i + 13 + nameSizeField srr.elems i)
                      (i + 13 + nameSizeField srr.elems i + dataSizeField srr.elems i)⟩)
      ∧ (bytesAt srr.elems (i + 13 + nameSizeField srr.elems i)
            (i + 13 + nameSizeField srr.elems i + dataSizeField srr.elems i)).length
          = dataSizeField srr.elems i := by
  have hlt := markerTest_hit_lt_len srr i hhit
  have hmiss : ∀ j, j < i → markerTest srr j = .ok false := by
    intro j hj
    obtain ⟨b, hb⟩ := markerTest_ok_of_lt srr j (by omega)
    cases b
    · exact hb
    · exact absurd hb (hfirst j hj)
  have hskip := scanLoop_skip_misses srr i hmiss (by omega) i (le_refl _) (srr.len - i + 1) []
  have e : srr.len - i + 1 + i = srr.len + 1 := by omega
  rw [e] at hskip
  have hread := readBlock_of_fit srr i hfit
  have hstep := scanLoop_succ_of_hit srr (srr.len - i) i [] _ _ (by omega) hhit hread
  have hscan : (scan srr).storedFiles.head?
      = some ⟨bytesAt srr.elems (i + 13) (i + 13 + nameSizeField srr.elems i),
              bytesAt srr.elems (i + 13 + nameSizeField srr.elems i)
                (i + 13 + nameSizeField srr.elems i + dataSizeField srr.elems i)⟩ := by
    unfold scan
    rw [hskip, hstep, scanLoop_acc]
    simp
  refine ⟨hscan, ?_, ?_⟩
  · intro files hf
    rw [extractStoredFiles_eq_ok_iff] at hf
    rw [hf] at hscan
    exact hscan
  · simp only [bytesAt, List.length_take, List.length_drop, ByteSlice.len] at *
    omega

theorem extractStoredFiles_first_record_layout_witness :
    (scan ⟨[0x00, 0x6A, 0x00, 0x6A, 0x6A, 0x6A, 9, 9, 9, 9, 2, 0, 0, 0, 1, 0,
            0x61, 7, 8, 0x6A], []⟩).storedFiles.head? = some ⟨[0x61], [7, 8]⟩
    ∧ extractStoredFiles ⟨[0x00, 0x6A, 0x00, 0x6A, 0x6A, 0x6A, 9, 9, 9, 9, 2, 0, 0, 0, 1, 0,
            0x61, 7, 8, 0x00], []⟩ = .ok [⟨[0x61], [7, 8]⟩] :=
  ⟨(extractStoredFiles_first_record_layout
      ⟨[0x00, 0x6A, 0x00, 0x6A, 0x6A, 0x6A, 9, 9, 9, 9, 2, 0, 0, 0, 1, 0, 0x61, 7, 8, 0x6A], []⟩
      3 (by decide) (by decide) (by decide)).1,
   by decide⟩


/-! ### Buffers without a marker, and blocks that do not fit -/

/-- C3: the buffer `69 69 69 6A 6A 00 .. 00` (16 bytes) carries the signature and holds
no `6A 6A 6A` at any offset, yet `extractStoredFiles` returns one record (empty name,
empty data), because the marker test reads offset `i+1` twice; and on the buffer
`69 69 69 6A`, also without a marker, it panics at the read of offset `i+1`. -/
theorem extractStoredFiles_no_marker_not_empty :
    ¬ [0x6A, 0x6A, 0x6A] <:+: [(0x69 : UInt8), 0x69, 0x69, 0x6A, 0x6A, 0, 0, 0, 0, 0, 0, 0, 0, 0, 0, 0]
    ∧ extractStoredFiles ⟨[0x69, 0x69, 0x69, 0x6A, 0x6A, 0, 0, 0, 0, 0, 0, 0, 0, 0, 0, 0], []⟩
        = .ok [⟨[], []⟩]
    ∧ ¬ [0x6A, 0x6A, 0x6A] <:+: [(0x69 : UInt8), 0x69, 0x69, 0x6A]
    ∧ extractStoredFiles ⟨[0x69, 0x69, 0x69, 0x6A], []⟩ = .error .indexOutOfRange := by
  refine ⟨by decide, by decide, by decide, by decide⟩

/-- C4: on the 16-byte buffer `69 69 69 6A 6A 6A 00 00 00 00 05 00 00 00 00 00` the marker
at offset 3 declares 5 data bytes, so that `3+13+0+5 = 21 > 16`.  With a backing array
no longer than the buffer `extractStoredFiles` stops with a run-time panic; with spare
capacity behind the buffer it returns a record whose 5 data bytes lie outside the
buffer. -/
theorem extractStoredFiles_oversized_block :
    markerTest ⟨[0x69, 0x69, 0x69, 0x6A, 0x6A, 0x6A, 0, 0, 0, 0, 5, 0, 0, 0, 0, 0], []⟩ 3 = .ok true
    ∧ 3 + 13 + nameSizeField [0x69, 0x69, 0x69, 0x6A, 0x6A, 0x6A, 0, 0, 0, 0, 5, 0, 0, 0, 0, 0] 3
          + dataSizeField [0x69, 0x69, 0x69, 0x6A, 0x6A, 0x6A, 0, 0, 0, 0, 5, 0, 0, 0, 0, 0] 3
        > [(0x69 : UInt8), 0x69, 0x69, 0x6A, 0x6A, 0x6A, 0, 0, 0, 0, 5, 0, 0, 0, 0, 0].length
    ∧ extractStoredFiles ⟨[0x69, 0x69, 0x69, 0x6A, 0x6A, 0x6A, 0, 0, 0, 0, 5, 0, 0, 0, 0, 0], []⟩
        = .error .sliceBoundsOutOfRange
    ∧ extractStoredFiles ⟨[0x69, 0x69, 0x69, 0x6A, 0x6A, 0x6A, 0, 0, 0, 0, 5, 0, 0, 0, 0, 0],
          [0xA1, 0xA2, 0xA3, 0xA4, 0xA5, 0xA6]⟩
        = .ok [⟨[], [0xA1, 0xA2, 0xA3, 0xA4, 0xA5]⟩] := by
  refine ⟨by decide, by decide, by decide, by decide⟩


/-! ### The signature test in `download` -/

theorem emitMember_ne_notValidSRR (toStdout prunePaths : Bool) (file : storedFile)
    (d : GoString) : emitMember toStdout prunePaths file ≠ Output.notValidSRR d := by
  cases toStdout <;> simp [emitMember]

/-- The member loop only adds outputs that write or save a member. -/
theorem memberLoop_out (unicodeLower : GoString → GoString) (extension : GoString)
    (toStdout prunePaths : Bool) (files : List storedFile) :
    ∀ (fileFound : Bool) (out : List Output) (o : Output),
      o ∈ (memberLoop unicodeLower extension toStdout prunePaths files fileFound out).1 →
      o ∈ out ∨ ∃ file, o = emitMember toStdout prunePaths file := by
  induction files with
  | nil => intro fileFound out o h; exact Or.inl h
  | cons file rest ih =>
    intro fileFound out o h
    simp only [memberLoop] at h
    rcases hm : extensionMatches unicodeLower extension file.name with p | b
    · rw [hm] at h; exact Or.inl h
    · cases b
      · rw [hm] at h; exact ih _ _ _ h
      · rw [hm] at h
        rcases ih _ _ _ h with h1 | h1
        · rcases List.mem_append.1 h1 with h2 | h2
          · exact Or.inl h2
          · exact Or.inr ⟨file, by simpa using h2⟩
        · exact Or.inr h1

/-- The accepting branch never reports a buffer as not valid. -/
theorem acceptSRR_not_notValidSRR (unicodeLower : GoString → GoString)
    (toStdout prunePaths : Bool) (dirname : GoString) (srr : ByteSlice)
    (extension : GoString) (out : List Output) (d : GoString)
    (h : Output.notValidSRR d
          ∈ (acceptSRR unicodeLower toStdout prunePaths dirname srr extension out).out) :
    Output.notValidSRR d ∈ out := by
  unfold acceptSRR at h
  simp only at h
  split at h
  · cases toStdout <;> simpa using h
  · rcases he : extractStoredFiles srr with p | storedFiles
    · rw [he] at h; exact h
    · rw [he] at h
      simp only at h
      have hml := memberLoop_out unicodeLower (ToLower unicodeLower extension) toStdout prunePaths
        storedFiles false out (Output.notValidSRR d)
      rcases hr : memberLoop unicodeLower (ToLower unicodeLower extension) toStdout prunePaths
          storedFiles false out with ⟨out2, r⟩
      rw [hr] at h hml
      have hmem : Output.notValidSRR d ∈ out2 := by
        rcases r with p | b
        · exact h
        · cases b
          · simpa using h
          · exact h
      rcases hml hmem with h1 | ⟨file, h1⟩
      · exact h1
      · exact absurd h1.symm (emitMember_ne_notValidSRR _ _ _ _)

/-- The member loop when no name is shorter than the extension: the members passing the
test of line 237 are written or saved, in order, and `fileFound` records whether there
was one. -/
theorem memberLoop_of_fitting_names (unicodeLower : GoString → GoString)
    (extension : GoString) (toStdout prunePaths : Bool) (files : List storedFile) :
    ∀ (fileFound : Bool) (out : List Output),
      (∀ f ∈ files, extension.length ≤ f.name.length) →
      memberLoop unicodeLower extension toStdout prunePaths files fileFound out
        = (out ++ (files.filter (fun f => decide (ToLower unicodeLower
              (f.name.drop (f.name.length - extension.length)) = extension))).map
              (fun f => if toStdout then Output.stdout f.data
                        else Output.saveFile f.name f.data prunePaths),
           .ok (fileFound || !(files.filter (fun f => decide (ToLower unicodeLower
              (f.name.drop (f.name.length - extension.length)) = extension))).isEmpty)) := by
  induction files with
  | nil => intro fileFound out _; simp [memberLoop]
  | cons f rest ih =>
    intro fileFound out hfit
    have hf : ¬ f.name.length < extension.length := by
      have := hfit f (List.mem_cons_self _ _)
      omega
    have hrest : ∀ g ∈ rest, extension.length ≤ g.name.length :=
      fun g hg => hfit g (List.mem_cons_of_mem _ hg)
    by_cases hsel : ToLower unicodeLower (f.name.drop (f.name.length - extension.length))
        = extension
    · have hm : extensionMatches unicodeLower extension f.name = .ok true := by
        simp [extensionMatches, hf, hsel]
      simp only [memberLoop, hm]
      rw [ih true _ hrest, List.filter_cons_of_pos (by simpa using hsel)]
      cases toStdout <;> simp [emitMember]
    · have hm : extensionMatches unicodeLower extension f.name = .ok false := by
        simp [extensionMatches, hf, hsel]
      simp only [memberLoop, hm]
      rw [ih fileFound _ hrest, List.filter_cons_of_neg (by simpa using hsel)]

/-- C7: in `download`, a downloaded buffer of at least three bytes is accepted exactly
when its first three bytes are `0x69 0x69 0x69`.  A buffer without the signature is only
reported as not a valid SRR file, whatever `extractStoredFiles` would do on it.  A
buffer with the signature goes to the branch of lines 226 to 249, which never makes
that report and does the following with the lower-cased extension: when it is empty or
`srr` the whole buffer is printed (with `toStdout`) or saved as `dirname.srr`;
otherwise the buffer is handed to `extractStoredFiles`, a panic of the scanner stops the
run, and the records returned go through the member loop, whose panic stops the run and
which, when no name is shorter than the extension, writes or saves the members passing
the test of line 237 in order and reports a missing extension when there is none. -/
theorem download_accepts_iff_signature (unicodeLower : GoString → GoString)
    (get : GoString → Except Error HttpResponse) (toStdout prunePaths : Bool)
    (dirname extension : GoString) (out : List Output) (srr : ByteSlice)
    (hget : Download get dirname = .ok srr) (hlen : 3 ≤ srr.len) :
    (srr.elems.take 3 = [0x69, 0x69, 0x69] →
        downloadStep unicodeLower get toStdout prunePaths dirname extension out
          = acceptSRR unicodeLower toStdout prunePaths dirname srr extension out)
      ∧ (srr.elems.take 3 ≠ [0x69, 0x69, 0x69] →
        downloadStep unicodeLower get toStdout prunePaths dirname extension out
          = ⟨out ++ [.notValidSRR dirname], extension, none⟩)
      ∧ (∀ d, Output.notValidSRR d
            ∈ (acceptSRR unicodeLower toStdout prunePaths dirname srr extension out).out →
          Output.notValidSRR d ∈ out)
      ∧ (srr.elems.take 3 = [0x69, 0x69, 0x69] →
          (ToLower unicodeLower extension = []
            ∨ ToLower unicodeLower extension = ascii "srr") →
          downloadStep unicodeLower get toStdout prunePaths dirname extension out
            = ⟨out ++ [if toStdout then Output.stdout srr.elems
                       else Output.saveFile (dirname ++ ascii ".srr") srr.elems prunePaths],
               ToLower unicodeLower extension, none⟩)
      ∧ (srr.elems.take 3 = [0x69, 0x69, 0x69] →
          ¬ (ToLower unicodeLower extension = []
            ∨ ToLower unicodeLower extension = ascii "srr") →
          ∀ p, extractStoredFiles srr = .error p →
          downloadStep unicodeLower get toStdout prunePaths dirname extension out
            = ⟨out, ToLower unicodeLower extension, some (.fault p)⟩)
      ∧ (srr.elems.take 3 = [0x69, 0x69, 0x69] →
          ¬ (ToLower unicodeLower extension = []
            ∨ ToLower unicodeLower extension = ascii "srr") →
          ∀ files out2 p, extractStoredFiles srr = .ok files →
          memberLoop unicodeLower (ToLower unicodeLower extension) toStdout prunePaths
              files false out = (out2, .error p) →
          downloadStep unicodeLower get toStdout prunePaths dirname extension out
            = ⟨out2, ToLower unicodeLower extension, some (.fault p)⟩)
      ∧ (srr.elems.take 3 = [0x69, 0x69, 0x69] →
          ¬ (ToLower unicodeLower extension = []
            ∨ ToLower unicodeLower extension = ascii "srr") →
          ∀ files, extractStoredFiles srr = .ok files →
          (∀ f ∈ files, (ToLower unicodeLower extension).length ≤ f.name.length) →
          downloadStep unicodeLower get toStdout prunePaths dirname extension out
            = ⟨out
                ++ (files.filter (fun f => decide (ToLower unicodeLower
                      (f.name.drop (f.name.length - (ToLower unicodeLower extension).length))
                        = ToLower unicodeLower extension))).map
                    (fun f => if toStdout then Output.stdout f.data
                              else Output.saveFile f.name f.data prunePaths)
                ++ (if (files.filter (fun f => decide (ToLower unicodeLower
                      (f.name.drop (f.name.length - (ToLower unicodeLower extension).length))
                        = ToLower unicodeLower extension))).isEmpty
                    then [Output.extensionNotFound dirname] else []),
               ToLower unicodeLower extension, none⟩) := by
  have hv := isValidSRR_of_three_le srr hlen
  have hstep : srr.elems.take 3 = [0x69, 0x69, 0x69] →
      downloadStep unicodeLower get toStdout prunePaths dirname extension out
        = acceptSRR unicodeLower toStdout prunePaths dirname srr extension out := by
    intro hs
    simp [downloadStep, hget, hv, hs]
  refine ⟨hstep, ?_, fun d h => acceptSRR_not_notValidSRR _ _ _ _ _ _ _ d h, ?_, ?_, ?_, ?_⟩
  · intro hs
    simp [downloadStep, hget, hv, hs]
  · intro hs hext
    rw [hstep hs]
    unfold acceptSRR
    simp only [hext, if_true]
    cases toStdout <;> simp
  · intro hs hext p hp
    rw [hstep hs]
    unfold acceptSRR
    simp only [hext, if_false, hp]
  · intro hs hext files out2 p hf hm
    rw [hstep hs]
    unfold acceptSRR
    simp only [hext, if_false, hf, hm]
  · intro hs hext files hf hfit
    rw [hstep hs]
    unfold acceptSRR
    simp only [hext, if_false, hf]
    have hm := memberLoop_of_fitting_names unicodeLower (ToLower unicodeLower extension)
      toStdout prunePaths files false out hfit
    revert hm
    generalize (files.filter (fun f => decide (ToLower unicodeLower
        (f.name.drop (f.name.length - (ToLower unicodeLower extension).length))
          = ToLower unicodeLower extension))) = selected
    intro hm
    rw [hm]
    cases selected <;> simp

theorem download_accepts_iff_signature_witness :
    download id (fun _ => .ok ⟨200, .ok ⟨[0x69, 0x69, 0x69, 0x00], []⟩⟩)
        [ascii "rls"] (ascii "SRR") true false
      = ⟨[.stdout [0x69, 0x69, 0x69, 0x00]], ascii "srr", none⟩
    ∧ downloadStep id (fun _ => .ok ⟨200, .ok ⟨[0x69, 0x69, 0x6A, 0x6A], []⟩⟩) true false
        (ascii "rls") (ascii "nfo") []
      = ⟨[.notValidSRR (ascii "rls")], ascii "nfo", none⟩
    ∧ downloadStep id (fun _ => .ok ⟨200, .ok ⟨[0x69, 0x69, 0x69, 0x00]
          ++ encodeBlocks [⟨[0, 0x80, 0, 0], ascii "a.sfv", [9]⟩,
                           ⟨[0, 0x80, 0, 0], ascii "b.NFO", [1, 2]⟩], []⟩⟩) false true
        (ascii "rls") (ascii "Nfo") []
      = ⟨[.saveFile (ascii "b.NFO") [1, 2] true], ascii "nfo", none⟩ :=
  ⟨by decide,
   (download_accepts_iff_signature id (fun _ => .ok ⟨200, .ok ⟨[0x69, 0x69, 0x6A, 0x6A], []⟩⟩)
      true false (ascii "rls") (ascii "nfo") [] ⟨[0x69, 0x69, 0x6A, 0x6A], []⟩
      (by decide) (by decide)).2.1 (by decide),
   (download_accepts_iff_signature id (fun _ => .ok ⟨200, .ok ⟨[0x69, 0x69, 0x69, 0x00]
          ++ encodeBlocks [⟨[0, 0x80, 0, 0], ascii "a.sfv", [9]⟩,
                           ⟨[0, 0x80, 0, 0], ascii "b.NFO", [1, 2]⟩], []⟩⟩)
      false true (ascii "rls") (ascii "Nfo") []
      ⟨[0x69, 0x69, 0x69, 0x00]
          ++ encodeBlocks [⟨[0, 0x80, 0, 0], ascii "a.sfv", [9]⟩,
                           ⟨[0, 0x80, 0, 0], ascii "b.NFO", [1, 2]⟩], []⟩
      (by decide) (by decide)).2.2.2.2.2.2 (by decide) (by decide)
      [⟨ascii "a.sfv", [9]⟩, ⟨ascii "b.NFO", [1, 2]⟩] (by decide) (by decide)⟩


/-! ### The member filter -/

theorem ToLower_of_ascii (unicodeLower : GoString → GoString) (s : GoString)
    (h : ∀ c ∈ s, c < 0x80) :
    ToLower unicodeLower s = s.map (fun c => if 0x41 ≤ c ∧ c ≤ 0x5A then c + 0x20 else c) := by
  have : (s.all fun c => decide (c < 0x80)) = true := by
    rw [List.all_eq_true]
    intro c hc
    exact decide_eq_true (h c hc)
  simp [ToLower, this]

theorem ToLower_length_of_ascii (unicodeLower : GoString → GoString) (s : GoString)
    (h : ∀ c ∈ s, c < 0x80) : (ToLower unicodeLower s).length = s.length := by
  rw [ToLower_of_ascii unicodeLower s h, List.length_map]

theorem ToLower_drop_of_ascii (unicodeLower : GoString → GoString) (s : GoString) (k : Nat)
    (h : ∀ c ∈ s, c < 0x80) :
    ToLower unicodeLower (s.drop k) = (ToLower unicodeLower s).drop k := by
  rw [ToLower_of_ascii unicodeLower s h,
    ToLower_of_ascii unicodeLower (s.drop k) (fun c hc => h c (List.mem_of_mem_drop hc)),
    List.map_drop]

/-- C8: member filter.  For an ASCII extension no longer than the name, the test of
line 237, run with the extension lower-cased at line 226, succeeds exactly when the last
`len(extension)` bytes of the name, lower-cased, equal the lower-cased extension, and the
member loop then writes or saves the member, otherwise skips it.  For an ASCII name the
outcome is the same for any other spelling of the name and of the extension that
lower-cases to the same strings.  `Movie.NFO` matches `nfo`, and `foo.mp3` matches `p3`. -/
theorem extensionMatches_iff_lowered_suffix (unicodeLower : GoString → GoString)
    (name extension : GoString) (hascii : ∀ c ∈ extension, c < 0x80)
    (hlen : extension.length ≤ name.length) :
    extensionMatches unicodeLower (ToLower unicodeLower extension) name
        = .ok (decide (ToLower unicodeLower (name.drop (name.length - extension.length))
                        = ToLower unicodeLower extension))
      ∧ (∀ (toStdout prunePaths : Bool) (data : List UInt8) (out : List Output),
          memberLoop unicodeLower (ToLower unicodeLower extension) toStdout prunePaths
              [⟨name, data⟩] false out
            = if ToLower unicodeLower (name.drop (name.length - extension.length))
                  = ToLower unicodeLower extension
              then (out ++ [emitMember toStdout prunePaths ⟨name, data⟩], .ok true)
              else (out, .ok false))
      ∧ (∀ name2 extension2 : GoString, (∀ c ∈ name, c < 0x80) → (∀ c ∈ name2, c < 0x80) →
          (∀ c ∈ extension2, c < 0x80) →
          ToLower unicodeLower name2 = ToLower unicodeLower name →
          ToLower unicodeLower extension2 = ToLower unicodeLower extension →
          extensionMatches unicodeLower (ToLower unicodeLower extension2) name2
            = extensionMatches unicodeLower (ToLower unicodeLower extension) name)
      ∧ extensionMatches unicodeLower (ToLower unicodeLower (ascii "nfo")) (ascii "Movie.NFO")
          = .ok true
      ∧ extensionMatches unicodeLower (ToLower unicodeLower (ascii "p3")) (ascii "foo.mp3")
          = .ok true := by
  have key : ∀ (n e : GoString), (∀ c ∈ e, c < 0x80) → e.length ≤ n.length →
      extensionMatches unicodeLower (ToLower unicodeLower e) n
        = .ok (decide (ToLower unicodeLower (n.drop (n.length - e.length))
                        = ToLower unicodeLower e)) := by
    intro n e he hl
    have hle := ToLower_length_of_ascii unicodeLower e he
    simp only [extensionMatches, hle]
    rw [if_neg (by omega)]
  refine ⟨key name extension hascii hlen, ?_, ?_, ?_, ?_⟩
  · intro toStdout prunePaths data out
    simp only [memberLoop, key name extension hascii hlen]
    by_cases h : ToLower unicodeLower (name.drop (name.length - extension.length))
        = ToLower unicodeLower extension
    · simp [h]
    · simp [h]
  · intro name2 extension2 hn hn2 he2 hnn hee
    have l1 : name2.length = name.length := by
      rw [← ToLower_length_of_ascii unicodeLower name2 hn2, hnn,
        ToLower_length_of_ascii unicodeLower name hn]
    have l2 : extension2.length = extension.length := by
      rw [← ToLower_length_of_ascii unicodeLower extension2 he2, hee,
        ToLower_length_of_ascii unicodeLower extension hascii]
    rw [key name2 extension2 he2 (by omega), key name extension hascii hlen,
      ToLower_drop_of_ascii unicodeLower name2 _ hn2,
      ToLower_drop_of_ascii unicodeLower name _ hn, hnn, hee, l1, l2]
  · rw [key _ _ (by decide) (by decide)]
    rw [ToLower_of_ascii unicodeLower _ (by decide), ToLower_of_ascii unicodeLower _ (by decide)]
    decide
  · rw [key _ _ (by decide) (by decide)]
    rw [ToLower_of_ascii unicodeLower _ (by decide), ToLower_of_ascii unicodeLower _ (by decide)]
    decide

theorem extensionMatches_iff_lowered_suffix_witness :
    (∀ c ∈ ascii "NFO", c < 0x80) ∧ (ascii "NFO").length ≤ (ascii "Movie.nfo").length
    ∧ extensionMatches id (ToLower id (ascii "NFO")) (ascii "Movie.nfo") = .ok true
    ∧ extensionMatches id (ToLower id (ascii "nfo")) (ascii "Movie.sfv") = .ok false :=
  ⟨by decide, by decide,
   (extensionMatches_iff_lowered_suffix id (ascii "Movie.nfo") (ascii "NFO")
      (by decide) (by decide)).1,
   (extensionMatches_iff_lowered_suffix id (ascii "Movie.sfv") (ascii "nfo")
      (by decide) (by decide)).1⟩


/-! ### Short downloads -/

/-- C9: `Download` returns an empty body, and the bodies `69` and `69 69`, without
error, and `download` then panics in `isValidSRR` at the read of index 0, 1 and 2
respectively: no length test stands between the two. -/
theorem download_short_body_index_out_of_range :
    Download (fun _ => .ok ⟨200, .ok ⟨[], []⟩⟩) (ascii "rls") = .ok ⟨[], []⟩
    ∧ isValidSRR ⟨[], []⟩ = .error .indexOutOfRange
    ∧ download id (fun _ => .ok ⟨200, .ok ⟨[], []⟩⟩) [ascii "rls"] [] false false
        = ⟨[], [], some (.fault .indexOutOfRange)⟩
    ∧ Download (fun _ => .ok ⟨200, .ok ⟨[0x69], []⟩⟩) (ascii "rls") = .ok ⟨[0x69], []⟩
    ∧ download id (fun _ => .ok ⟨200, .ok ⟨[0x69], []⟩⟩) [ascii "rls"] [] false false
        = ⟨[], [], some (.fault .indexOutOfRange)⟩
    ∧ Download (fun _ => .ok ⟨200, .ok ⟨[0x69, 0x69], []⟩⟩) (ascii "rls") = .ok ⟨[0x69, 0x69], []⟩
    ∧ download id (fun _ => .ok ⟨200, .ok ⟨[0x69, 0x69], []⟩⟩) [ascii "rls"] [] false false
        = ⟨[], [], some (.fault .indexOutOfRange)⟩ := by
  refine ⟨by decide, by decide, by decide, by decide, by decide, by decide, by decide⟩

/-! ### The login cookie -/

theorem containsValidLoginCookie_iff (cookies : List Cookie) :
    containsValidLoginCookie cookies = true ↔ ∃ c ∈ cookies, c.Name = ascii "uid" := by
  induction cookies with
  | nil => simp [containsValidLoginCookie]
  | cons c rest ih =>
    simp only [containsValidLoginCookie, List.mem_cons, exists_eq_or_imp]
    by_cases h : c.Name = ascii "uid"
    · simp [h]
    · simp [h, ih]

/-- C10: `containsValidLoginCookie` is true exactly when some cookie of the list is named
`uid`, byte for byte, and false on the empty list.  When it is false on the cookies the
jar holds for the site, `UploadStoredFile` returns the empty string with the error
`No login cookie found in provided cookie jar.` and has performed no action.  When it
is false on the cookies of the login response, at the call of line 127,
`NewLoginCookieJar` returns the error `Wrong authentication?`. -/
theorem containsValidLoginCookie_spec :
    (∀ cookies : List Cookie,
        containsValidLoginCookie cookies = true ↔ ∃ c ∈ cookies, c.Name = ascii "uid")
      ∧ containsValidLoginCookie [] = false
      ∧ containsValidLoginCookie [⟨ascii "UID", []⟩, ⟨ascii "uid ", []⟩] = false
      ∧ (∀ (env : UploadEnv) (fp dirname folder : GoString) (jar : Jar),
          containsValidLoginCookie (jar.Cookies srrdbURLStruct) = false →
          UploadStoredFile env fp dirname folder jar = ([], [], some .noLoginCookie))
      ∧ Error.noLoginCookie.Error = "No login cookie found in provided cookie jar."
      ∧ (∀ (post : PostOutcome) (cookies : List Cookie) (newJar : Except Error Jar),
          post.response = some cookies →
          (∀ err, post.err = some err → err.Error = "Post /: redirect") →
          containsValidLoginCookie cookies = false →
          NewLoginCookieJar post newJar = .ok (.error .wrongAuthentication))
      ∧ Error.wrongAuthentication.Error = "Wrong authentication?" := by
  refine ⟨containsValidLoginCookie_iff, by decide, by decide, ?_, by decide, ?_, by decide⟩
  · intro env fp dirname folder jar h
    simp [UploadStoredFile, h]
  · intro post cookies newJar hr he hc
    rcases post with ⟨response, err⟩
    simp only at hr he
    subst hr
    cases err with
    | none => simp [NewLoginCookieJar, NewLoginCookieJar.afterPost, hc]
    | some e =>
      have := he e rfl
      simp [NewLoginCookieJar, NewLoginCookieJar.afterPost, hc, this]

theorem containsValidLoginCookie_spec_witness :
    containsValidLoginCookie [⟨ascii "sid", []⟩, ⟨ascii "uid", [0x31]⟩] = true
    ∧ UploadStoredFile
        ⟨fun _ => .ok (), fun _ => .ok (), fun _ => .ok [], fun _ => .ok (),
         fun _ _ _ => .ok ⟨200, .ok ⟨[], []⟩⟩, fun _ => []⟩
        (ascii "a.nfo") (ascii "rls") []
        ⟨[(srrdbURLStruct, [⟨ascii "sid", []⟩])], fun _ _ => true, fun _ _ => true⟩
      = ([], [], some .noLoginCookie)
    ∧ NewLoginCookieJar ⟨some [⟨ascii "sid", []⟩], some (.external "Post /: redirect")⟩
        (.ok ⟨[], fun _ _ => true, fun _ _ => true⟩) = .ok (.error .wrongAuthentication) :=
  ⟨(containsValidLoginCookie_spec.1 _).2 ⟨⟨ascii "uid", [0x31]⟩, by decide, rfl⟩,
   containsValidLoginCookie_spec.2.2.2.1 _ _ _ _ _ (by decide),
   containsValidLoginCookie_spec.2.2.2.2.2.1 _ _ _ rfl (by decide) (by decide)⟩


/-! ### The third marker byte -/

/-- The marker test reads the elements at `i` and `i+1` only. -/
theorem markerTest_congr (srr other : ByteSlice) (i : Nat)
    (h0 : other.elems[i]? = srr.elems[i]?) (h1 : other.elems[i + 1]? = srr.elems[i + 1]?) :
    markerTest other i = markerTest srr i := by
  simp only [markerTest, ByteSlice.index, h0, h1]

theorem set_third_marker_byte (lead : List UInt8) (b : Block) (v : UInt8) :
    (lead ++ b.encode).set (lead.length + 2) v
      = lead ++ ([0x6A, 0x6A, v] ++ b.flags ++ leBytes 4 b.data.length
          ++ leBytes 2 b.name.length ++ b.name ++ b.data) := by
  rw [List.set_append_right _ _ (by omega)]
  simp [Block.encode]

theorem readBlock_at_header (lead head3 rest spare : List UInt8) (b : Block)
    (h3 : head3.length = 3) (h : b.WellFormed) :
    readBlock ⟨lead ++ (head3 ++ b.flags ++ leBytes 4 b.data.length
        ++ leBytes 2 b.name.length ++ b.name ++ b.data) ++ rest, spare⟩ lead.length
      = .ok (b.toStoredFile, lead.length + 13 + b.name.length + b.data.length) := by
  obtain ⟨hf, hn, hd⟩ := h
  have s1 := slice_of_mem_eq ⟨lead ++ (head3 ++ b.flags ++ leBytes 4 b.data.length
        ++ leBytes 2 b.name.length ++ b.name ++ b.data) ++ rest, spare⟩
    (lead ++ head3 ++ b.flags ++ leBytes 4 b.data.length)
    (leBytes 2 b.name.length) (b.name ++ b.data ++ rest ++ spare)
    (lead.length + 11) (lead.length + 13)
    (by simp [ByteSlice.mem, List.append_assoc])
    (by simp [leBytes_length, hf, h3]) (by simp [leBytes_length, hf, h3])
  have s2 := slice_of_mem_eq ⟨lead ++ (head3 ++ b.flags ++ leBytes 4 b.data.length
        ++ leBytes 2 b.name.length ++ b.name ++ b.data) ++ rest, spare⟩
    (lead ++ head3 ++ b.flags)
    (leBytes 4 b.data.length) (leBytes 2 b.name.length ++ b.name ++ b.data ++ rest ++ spare)
    (lead.length + 7) (lead.length + 11)
    (by simp [ByteSlice.mem, List.append_assoc])
    (by simp [hf, h3]) (by simp [leBytes_length, hf, h3])
  have s3 := slice_of_mem_eq ⟨lead ++ (head3 ++ b.flags ++ leBytes 4 b.data.length
        ++ leBytes 2 b.name.length ++ b.name ++ b.data) ++ rest, spare⟩
    (lead ++ head3 ++ b.flags ++ leBytes 4 b.data.length ++ leBytes 2 b.name.length)
    b.name (b.data ++ rest ++ spare)
    (lead.length + 13) (lead.length + 13 + b.name.length)
    (by simp [ByteSlice.mem, List.append_assoc])
    (by simp [leBytes_length, hf, h3]) (by simp [leBytes_length, hf, h3])
  have s4 := slice_of_mem_eq ⟨lead ++ (head3 ++ b.flags ++ leBytes 4 b.data.length
        ++ leBytes 2 b.name.length ++ b.name ++ b.data) ++ rest, spare⟩
    (lead ++ head3 ++ b.flags ++ leBytes 4 b.data.length ++ leBytes 2 b.name.length ++ b.name)
    b.data (rest ++ spare)
    (lead.length + 13 + b.name.length) (lead.length + 13 + b.name.length + b.data.length)
    (by simp [ByteSlice.mem, List.append_assoc])
    (by simp [leBytes_length, hf, h3]; omega) (by simp [leBytes_length, hf, h3]; omega)
  simp only [readBlock, bind, Except.bind, pure, Except.pure, s1, s2,
    bytesToInt_leBytes_two _ hn, bytesToInt_leBytes_four _ hd, s3, s4]
  rfl

/-- The scan of a lead-in without `0x6A` followed by one block whose third marker byte is
arbitrary. -/
theorem extractStoredFiles_single_block_any_third (lead spare : List UInt8) (b : Block)
    (v : UInt8) (hlead : ∀ x ∈ lead, x ≠ 0x6A) (hwf : b.WellFormed) :
    extractStoredFiles ⟨lead ++ ([0x6A, 0x6A, v] ++ b.flags ++ leBytes 4 b.data.length
          ++ leBytes 2 b.name.length ++ b.name ++ b.data), spare⟩
      = .ok [b.toStoredFile] := by
  have hlen : ([0x6A, 0x6A, v] ++ b.flags ++ leBytes 4 b.data.length
      ++ leBytes 2 b.name.length ++ b.name ++ b.data).length
        = 13 + b.name.length + b.data.length := by
    simp only [List.length_append, leBytes_length, hwf.1, List.length_cons, List.length_nil]
  rw [extractStoredFiles_eq_ok_iff]
  unfold scan
  have hs := scanLoop_skip lead hlead []
    ([0x6A, 0x6A, v] ++ b.flags ++ leBytes 4 b.data.length
      ++ leBytes 2 b.name.length ++ b.name ++ b.data) spare
    (13 + b.name.length + b.data.length + 1) []
  simp only [List.nil_append, List.length_nil, Nat.zero_add] at hs
  have e : (ByteSlice.mk (lead ++ ([0x6A, 0x6A, v] ++ b.flags ++ leBytes 4 b.data.length
      ++ leBytes 2 b.name.length ++ b.name ++ b.data)) spare).len + 1
      = 13 + b.name.length + b.data.length + 1 + lead.length := by
    simp only [ByteSlice.len, List.length_append, hlen]
    omega
  rw [e, hs]
  have hm : markerTest ⟨lead ++ ([0x6A, 0x6A, v] ++ b.flags ++ leBytes 4 b.data.length
      ++ leBytes 2 b.name.length ++ b.name ++ b.data), spare⟩ lead.length = .ok true := by
    rw [markerTest_eq_true_iff]
    constructor
    · rw [List.getElem?_append_right (le_refl _)]; simp
    · rw [List.getElem?_append_right (by omega)]; simp
  have hr := readBlock_at_header lead [0x6A, 0x6A, v] [] spare b rfl hwf
  simp only [List.append_nil] at hr
  have hlt : lead.length < (ByteSlice.mk (lead ++ ([0x6A, 0x6A, v] ++ b.flags
      ++ leBytes 4 b.data.length ++ leBytes 2 b.name.length ++ b.name ++ b.data)) spare).len := by
    simp only [ByteSlice.len, List.length_append, hlen]
    omega
  rw [scanLoop_succ_of_hit _ _ _ _ _ _ hlt hm hr]
  have e2 : 13 + b.name.length + b.data.length = 12 + b.name.length + b.data.length + 1 := by
    omega
  rw [e2, scanLoop_succ_of_ge]
  · simp
  · simp only [ByteSlice.len, List.length_append, hlen]
    omega

/-- C11: the marker test depends only on the bytes at offsets `i` and `i+1`; and for a
lead-in without `0x6A` followed by one well-formed block, replacing the third marker
byte (offset `i+2`) by any value `v` leaves the result of `extractStoredFiles`
unchanged: the block is still extracted. -/
theorem extractStoredFiles_third_marker_byte_ignored (lead spare : List UInt8) (b : Block)
    (v : UInt8) (hlead : ∀ x ∈ lead, x ≠ 0x6A) (hwf : b.WellFormed) :
    (∀ (srr other : ByteSlice) (i : Nat), other.elems[i]? = srr.elems[i]? →
        other.elems[i + 1]? = srr.elems[i + 1]? → markerTest other i = markerTest srr i)
      ∧ extractStoredFiles ⟨(lead ++ b.encode).set (lead.length + 2) v, spare⟩
          = extractStoredFiles ⟨lead ++ b.encode, spare⟩
      ∧ extractStoredFiles ⟨(lead ++ b.encode).set (lead.length + 2) v, spare⟩
          = .ok [b.toStoredFile] := by
  have h1 := extractStoredFiles_single_block_any_third lead spare b v hlead hwf
  have h2 := extractStoredFiles_single_block_any_third lead spare b 0x6A hlead hwf
  rw [← set_third_marker_byte] at h1
  have e : lead ++ ([0x6A, 0x6A, 0x6A] ++ b.flags ++ leBytes 4 b.data.length
      ++ leBytes 2 b.name.length ++ b.name ++ b.data) = lead ++ b.encode := rfl
  rw [e] at h2
  exact ⟨markerTest_congr, by rw [h1, h2], h1⟩

theorem extractStoredFiles_third_marker_byte_ignored_witness :
    extractStoredFiles ⟨[0x69, 0x69, 0x69, 0x00, 0x6A, 0x6A, 0x00, 0, 0, 0, 0, 2, 0, 0, 0, 1, 0,
        0x61, 7, 8], []⟩ = .ok [⟨[0x61], [7, 8]⟩] :=
  (extractStoredFiles_third_marker_byte_ignored [0x69, 0x69, 0x69, 0x00] []
    ⟨[0, 0, 0, 0], [0x61], [7, 8]⟩ 0x00 (by decide) (by decide)).2.2


/-! ### Names shorter than the requested extension -/

/-- C12: for the member name `a` and the requested extension `nfo` the test of line 237
panics at the slice expression, whose low bound `len(file.name)-len(extension)` is
negative; `download` on a container with the signature and one stored file named `a`
stops with that panic instead of reporting that the extension was not found.  The same
holds for an empty name. -/
theorem download_short_member_name_panics :
    extensionMatches id (ToLower id (ascii "nfo")) (ascii "a") = .error .sliceBoundsOutOfRange
    ∧ extensionMatches id (ToLower id (ascii "nfo")) [] = .error .sliceBoundsOutOfRange
    ∧ extractStoredFiles ⟨[0x69, 0x69, 0x69, 0x00]
          ++ encodeBlocks [⟨[0, 0x80, 0, 0], ascii "a", [1, 2]⟩], []⟩
        = .ok [⟨ascii "a", [1, 2]⟩]
    ∧ download id (fun _ => .ok ⟨200, .ok ⟨[0x69, 0x69, 0x69, 0x00]
          ++ encodeBlocks [⟨[0, 0x80, 0, 0], ascii "a", [1, 2]⟩], []⟩⟩)
        [ascii "rls"] (ascii "nfo") false false
      = ⟨[], ascii "nfo", some (.fault .sliceBoundsOutOfRange)⟩ := by
  refine ⟨by decide, by decide, by decide, by decide⟩

/-! ### Termination of the scan loop -/

/-- C14: the scan loop terminates on every buffer.  An iteration whose marker test fails
moves the cursor from `i` to `i+1`; one whose test succeeds moves it to `dataEnd`, which
is at least `i+13`; so the budget of `len(srr)+1` evaluations of the loop condition, that
is at most `len(srr)` iterations, is never exhausted, and a larger budget gives the same
result. -/
theorem scanLoop_terminates (srr : ByteSlice) :
    (scan srr).fault ≠ some .outOfFuel
      ∧ extractStoredFiles srr ≠ .error .outOfFuel
      ∧ (∀ n, srr.len + 1 ≤ n → scanLoop srr n 0 [] = scan srr)
      ∧ (∀ (fuel i : Nat) (acc : List storedFile), i < srr.len →
          markerTest srr i = .ok false →
          scanLoop srr (fuel + 1) i acc = scanLoop srr fuel (i + 1) acc)
      ∧ (∀ (fuel i : Nat) (acc : List storedFile) (file : storedFile) (dataEnd : Nat),
          i < srr.len → markerTest srr i = .ok true → readBlock srr i = .ok (file, dataEnd) →
          i + 13 ≤ dataEnd
            ∧ scanLoop srr (fuel + 1) i acc = scanLoop srr fuel dataEnd (acc ++ [file])) := by
  refine ⟨scanLoop_fault_ne_outOfFuel srr (srr.len + 1) 0 [] (by omega),
    extractStoredFiles_fuel_sufficient srr, ?_, ?_, ?_⟩
  · intro n hn
    exact scanLoop_fuel_irrelevant srr n (srr.len + 1) 0 [] (by omega) (by omega)
  · intro fuel i acc hi hm
    exact scanLoop_succ_of_miss srr fuel i acc hi hm
  · intro fuel i acc file dataEnd hi hm hr
    exact ⟨readBlock_dataEnd_ge srr i file dataEnd hr,
      scanLoop_succ_of_hit srr fuel i acc file dataEnd hi hm hr⟩

theorem scanLoop_terminates_witness :
    (scan ⟨[0x6A, 0x00, 0x6A, 0x6A, 0x6A, 0, 0, 0, 0, 1, 0, 0, 0, 0, 0, 0x6A, 0x00], []⟩).fault
        ≠ some .outOfFuel
    ∧ scanLoop ⟨[0x6A, 0x00, 0x6A, 0x6A, 0x6A, 0, 0, 0, 0, 1, 0, 0, 0, 0, 0, 0x6A, 0x00], []⟩ 40 0 []
        = ⟨[⟨[], [0x6A]⟩], none⟩ :=
  ⟨(scanLoop_terminates
      ⟨[0x6A, 0x00, 0x6A, 0x6A, 0x6A, 0, 0, 0, 0, 1, 0, 0, 0, 0, 0, 0x6A, 0x00], []⟩).1,
   by decide⟩


/-! ### Regions of the returned records -/

theorem slice_ok_of_no_spare (e : List UInt8) (lo hi : Nat) (t : ByteSlice)
    (h : ByteSlice.slice ⟨e, []⟩ lo hi = .ok t) :
    lo ≤ hi ∧ hi ≤ e.length ∧ t.elems = bytesAt e lo hi := by
  unfold ByteSlice.slice at h
  split at h
  · rename_i hc
    simp only [ByteSlice.cap, List.length_nil, Nat.add_zero] at hc
    simp only [Except.ok.injEq] at h
    subst h
    exact ⟨hc.2, hc.1, by simp [ByteSlice.mem, bytesAt]⟩
  · cases h

theorem bytesAt_length (buf : List UInt8) (lo hi : Nat) (h1 : lo ≤ hi) (h2 : hi ≤ buf.length) :
    (bytesAt buf lo hi).length = hi - lo := by
  simp only [bytesAt, List.length_take, List.length_drop]
  omega

/-- With no spare capacity, a block that is read lies inside the buffer. -/
theorem fit_of_readBlock_ok (e : List UInt8) (i : Nat) (x : storedFile × Nat)
    (h : readBlock ⟨e, []⟩ i = .ok x) :
    i + 13 + nameSizeField e i + dataSizeField e i ≤ e.length := by
  simp only [readBlock, bind, Except.bind, pure, Except.pure] at h
  rcases h1 : ByteSlice.slice ⟨e, []⟩ (i + 11) (i + 13) with q | nameField
  · rw [h1] at h; cases h
  · rw [h1] at h; simp only at h
    rcases h2 : ByteSlice.slice ⟨e, []⟩ (i + 7) (i + 11) with q | sizeField
    · rw [h2] at h; cases h
    · rw [h2] at h; simp only at h
      rcases h3 : ByteSlice.slice ⟨e, []⟩ (i + 13) (i + 13 + bytesToInt nameField.elems)
        with q | name
      · rw [h3] at h; cases h
      · rw [h3] at h; simp only at h
        rcases h4 : ByteSlice.slice ⟨e, []⟩ (i + 13 + bytesToInt nameField.elems)
            (i + 13 + bytesToInt nameField.elems + bytesToInt sizeField.elems) with q | data
        · rw [h4] at h; cases h
        · obtain ⟨a1, b1, c1⟩ := slice_ok_of_no_spare _ _ _ _ h1
          obtain ⟨a2, b2, c2⟩ := slice_ok_of_no_spare _ _ _ _ h2
          obtain ⟨_, b4, _⟩ := slice_ok_of_no_spare _ _ _ _ h4
          have l1 : nameField.elems.length ≤ 4 := by
            rw [c1, bytesAt_length _ _ _ a1 b1]; omega
          have l2 : sizeField.elems.length ≤ 4 := by
            rw [c2, bytesAt_length _ _ _ a2 b2]; omega
          have v1 : bytesToInt nameField.elems = nameSizeField e i := by
            rw [bytesToInt_eq_leValue _ l1, c1]; rfl
          have v2 : bytesToInt sizeField.elems = dataSizeField e i := by
            rw [bytesToInt_eq_leValue _ l2, c2]; rfl
          rw [v1, v2] at b4
          exact b4

/-- With no spare capacity, the record read at offset `i` and the cursor after it. -/
theorem readBlock_region (e : List UInt8) (i : Nat) (file : storedFile) (dataEnd : Nat)
    (h : readBlock ⟨e, []⟩ i = .ok (file, dataEnd)) :
    dataEnd = i + file.footprint ∧ dataEnd ≤ e.length
      ∧ file.name = bytesAt e (i + 13) (i + 13 + file.name.length)
      ∧ file.data = bytesAt e (i + 13 + file.name.length) (i + file.footprint) := by
  have hfit := fit_of_readBlock_ok e i _ h
  have hr := readBlock_of_fit ⟨e, []⟩ i hfit
  rw [h] at hr
  simp only [Except.ok.injEq, Prod.mk.injEq] at hr
  obtain ⟨hf, hd⟩ := hr
  have hn : file.name.length = nameSizeField e i := by
    rw [hf]
    simp only [ByteSlice.len] at hfit
    rw [bytesAt_length _ _ _ (by omega) (by omega)]
    omega
  have hdl : file.data.length = dataSizeField e i := by
    rw [hf]
    simp only [ByteSlice.len] at hfit
    rw [bytesAt_length _ _ _ (by omega) (by omega)]
    omega
  have hfp : i + file.footprint = i + 13 + nameSizeField e i + dataSizeField e i := by
    simp only [storedFile.footprint, hn, hdl]
    omega
  simp only [ByteSlice.len] at hfit
  refine ⟨by rw [hd, hfp], by rw [hd]; exact hfit, ?_, ?_⟩
  · rw [hn]; rw [hf]
  · rw [hfp, hn]; rw [hf]

/-- Spare capacity does not change a read that succeeds without it. -/
theorem readBlock_spare (e spare : List UInt8) (i : Nat) (x : storedFile × Nat)
    (h : readBlock ⟨e, []⟩ i = .ok x) : readBlock ⟨e, spare⟩ i = .ok x := by
  have hfit := fit_of_readBlock_ok e i _ h
  have h1 := readBlock_of_fit ⟨e, []⟩ i hfit
  have h2 := readBlock_of_fit ⟨e, spare⟩ i hfit
  rw [h2, ← h1, h]

theorem Regions_mono (buf : List UInt8) (files : List storedFile) (s t : Nat) (hst : s ≤ t)
    (h : Regions buf t files) : Regions buf s files := by
  cases files with
  | nil => trivial
  | cons f rest =>
    obtain ⟨o, ho, hrest⟩ := h
    exact ⟨o, by omega, hrest⟩

/-- The records appended from a cursor on lie one after the other from that cursor on. -/
theorem scanLoop_regions (e : List UInt8) (fuel : Nat) :
    ∀ (i : Nat) (acc files : List storedFile),
      scanLoop ⟨e, []⟩ fuel i acc = ⟨files, none⟩ →
      ∃ new, files = acc ++ new ∧ Regions e i new := by
  induction fuel with
  | zero => intro i acc files h; simp [scanLoop] at h
  | succ fuel ih =>
    intro i acc files h
    by_cases hi : i < (ByteSlice.mk e []).len
    · rcases hm : markerTest ⟨e, []⟩ i with p | b
      · simp [scanLoop, hi, hm] at h
      · cases b
        · rw [scanLoop_succ_of_miss _ _ _ _ hi hm] at h
          obtain ⟨new, h1, h2⟩ := ih _ _ _ h
          exact ⟨new, h1, Regions_mono _ _ _ _ (by omega) h2⟩
        · rcases hr : readBlock ⟨e, []⟩ i with p | ⟨file, dataEnd⟩
          · simp [scanLoop, hi, hm, hr] at h
          · rw [scanLoop_succ_of_hit _ _ _ _ _ _ hi hm hr] at h
            obtain ⟨new, h1, h2⟩ := ih _ _ _ h
            obtain ⟨r1, r2, r3, r4⟩ := readBlock_region e i file dataEnd hr
            refine ⟨file :: new, by simp [h1], ?_⟩
            rw [r1] at r2 h2
            exact ⟨i, le_refl _, r2, r3, r4, h2⟩
    · rw [scanLoop_succ_of_ge _ _ _ _ hi] at h
      simp only [ScanResult.mk.injEq, and_true] at h
      exact ⟨[], by simp [h], trivial⟩

theorem scanLoop_spare (e spare : List UInt8) (fuel : Nat) :
    ∀ (i : Nat) (acc files : List storedFile),
      scanLoop ⟨e, []⟩ fuel i acc = ⟨files, none⟩ →
      scanLoop ⟨e, spare⟩ fuel i acc = ⟨files, none⟩ := by
  induction fuel with
  | zero => intro i acc files h; simp [scanLoop] at h
  | succ fuel ih =>
    intro i acc files h
    have hmc : markerTest ⟨e, spare⟩ i = markerTest ⟨e, []⟩ i := markerTest_congr _ _ _ rfl rfl
    by_cases hi : i < (ByteSlice.mk e []).len
    · have hi2 : i < (ByteSlice.mk e spare).len := hi
      rcases hm : markerTest ⟨e, []⟩ i with p | b
      · simp [scanLoop, hi, hm] at h
      · cases b
        · rw [scanLoop_succ_of_miss _ _ _ _ hi hm] at h
          rw [scanLoop_succ_of_miss _ _ _ _ hi2 (hmc.trans hm)]
          exact ih _ _ _ h
        · rcases hr : readBlock ⟨e, []⟩ i with p | ⟨file, dataEnd⟩
          · simp [scanLoop, hi, hm, hr] at h
          · rw [scanLoop_succ_of_hit _ _ _ _ _ _ hi hm hr] at h
            rw [scanLoop_succ_of_hit _ _ _ _ _ _ hi2 (hmc.trans hm)
              (readBlock_spare e spare i _ hr)]
            exact ih _ _ _ h
    · have hi2 : ¬ i < (ByteSlice.mk e spare).len := hi
      rw [scanLoop_succ_of_ge _ _ _ _ hi] at h
      rw [scanLoop_succ_of_ge _ _ _ _ hi2]
      exact h

theorem Regions_sum_le (buf : List UInt8) (files : List storedFile) :
    ∀ s, Regions buf s files → (files.map storedFile.footprint).sum ≤ buf.length - s := by
  induction files with
  | nil => intro s _; simp
  | cons f rest ih =>
    intro s h
    obtain ⟨o, ho, hend, _, _, hrest⟩ := h
    have := ih _ hrest
    simp only [List.map_cons, List.sum_cons]
    omega

theorem footprint_sum_ge (files : List storedFile) :
    13 * files.length ≤ (files.map storedFile.footprint).sum := by
  induction files with
  | nil => simp
  | cons f rest ih =>
    simp only [List.map_cons, List.sum_cons, List.length_cons, storedFile.footprint]
    omega

/-- C13: no overlap.  When `extractStoredFiles` completes on a buffer with every access
inside the length of the buffer (it completes with the capacity cut down to the length),
it returns the same records whatever the spare capacity, the records occupy regions of
the buffer that follow one another in increasing offsets without overlapping, the sum
of `13 + len(name) + len(data)` over the records is at most `len(srr)`, and there are at
most `len(srr) / 13` records. -/
theorem extractStoredFiles_regions_disjoint (srr : ByteSlice) (files : List storedFile)
    (h : extractStoredFiles ⟨srr.elems, []⟩ = .ok files) :
    extractStoredFiles srr = .ok files
      ∧ Regions srr.elems 0 files
      ∧ (files.map (fun f => 13 + f.name.length + f.data.length)).sum ≤ srr.len
      ∧ files.length ≤ srr.len / 13 := by
  rw [extractStoredFiles_eq_ok_iff] at h
  have hreg : Regions srr.elems 0 files := by
    obtain ⟨new, h1, h2⟩ := scanLoop_regions srr.elems _ 0 [] files h
    simp only [List.nil_append] at h1
    rw [h1]; exact h2
  have hsum := Regions_sum_le srr.elems files 0 hreg
  have hge := footprint_sum_ge files
  refine ⟨?_, hreg, ?_, ?_⟩
  · rw [extractStoredFiles_eq_ok_iff]
    exact scanLoop_spare srr.elems srr.spare _ 0 [] files h
  · show (files.map storedFile.footprint).sum ≤ srr.elems.length
    omega
  · rw [Nat.le_div_iff_mul_le (by omega)]
    simp only [ByteSlice.len]
    omega

theorem extractStoredFiles_regions_disjoint_witness :
    extractStoredFiles ⟨[0x69, 0x69, 0x69, 0x6A, 0x6A, 0x6A, 0, 0, 0, 0, 1, 0, 0, 0, 1, 0, 0x61,
        0x6A, 0x00, 0x6A, 0x6A, 0x6A, 0, 0, 0, 0, 0, 0, 0, 0, 0, 0], [1, 2, 3]⟩
      = .ok [⟨[0x61], [0x6A]⟩, ⟨[], []⟩]
    ∧ [(⟨[0x61], [0x6A]⟩ : storedFile), ⟨[], []⟩].length ≤ 32 / 13 :=
  ⟨(extractStoredFiles_regions_disjoint
      ⟨[0x69, 0x69, 0x69, 0x6A, 0x6A, 0x6A, 0, 0, 0, 0, 1, 0, 0, 0, 1, 0, 0x61,
        0x6A, 0x00, 0x6A, 0x6A, 0x6A, 0, 0, 0, 0, 0, 0, 0, 0, 0, 0], [1, 2, 3]⟩
      [⟨[0x61], [0x6A]⟩, ⟨[], []⟩] (by decide)).1,
   by decide⟩


/-! ### `search`: one line per date -/

theorem UInt8_toNat_injective : Function.Injective UInt8.toNat := by
  intro a b h
  exact UInt8.ext_iff.mpr h

theorem stringLT_of_le_of_ne (a b : GoString) (h : stringLE a b) (hne : a ≠ b) :
    stringLT a b := by
  have hinj := List.map_injective_iff.2 UInt8_toNat_injective
  exact lt_of_le_of_ne h (fun e => hne (hinj e))

theorem sortStrings_perm (keys : List GoString) : (sortStrings keys).Perm keys :=
  List.perm_insertionSort _ _

theorem sortStrings_sorted (keys : List GoString) : List.Sorted stringLE (sortStrings keys) :=
  List.sorted_insertionSort _ _

theorem sortStrings_strict (keys : List GoString) (h : keys.Nodup) :
    List.Pairwise stringLT (sortStrings keys) := by
  have hs : List.Pairwise stringLE (sortStrings keys) := sortStrings_sorted keys
  have hn : List.Pairwise (fun a b => a ≠ b) (sortStrings keys) :=
    (sortStrings_perm keys).nodup_iff.2 h
  exact (hs.and hn).imp (fun hab => stringLT_of_le_of_ne _ _ hab.1 hab.2)

/-! Map assignment. -/

theorem find?_set (m : ResultMap) (k d : GoString) (v : SearchResult) :
    (m.set k v).find? (fun e => decide (e.1 = d))
      = if k = d then some (k, v) else m.find? (fun e => decide (e.1 = d)) := by
  unfold ResultMap.set
  by_cases hk : k = d
  · simp [hk]
  · simp only [hk, if_false]
    rw [List.find?_cons_of_neg _ (by simpa using hk)]
    induction m with
    | nil => rfl
    | cons e rest ih =>
      by_cases he : e.1 = k
      · have hed : ¬ e.1 = d := fun h => hk (he ▸ h)
        rw [List.filter_cons_of_neg (by simpa using he), ih,
          List.find?_cons_of_neg _ (by simpa using hed)]
      · rw [List.filter_cons_of_pos (by simpa using he)]
        by_cases hed : e.1 = d
        · rw [List.find?_cons_of_pos _ (by simpa using hed),
            List.find?_cons_of_pos _ (by simpa using hed)]
        · rw [List.find?_cons_of_neg _ (by simpa using hed),
            List.find?_cons_of_neg _ (by simpa using hed), ih]

theorem mem_keys_set (m : ResultMap) (k d : GoString) (v : SearchResult) :
    d ∈ (m.set k v).map Prod.fst ↔ d = k ∨ d ∈ m.map Prod.fst := by
  unfold ResultMap.set
  simp only [List.map_cons, List.mem_cons, List.mem_map, List.mem_filter, decide_eq_true_eq]
  constructor
  · rintro (h | ⟨e, ⟨he, _⟩, rfl⟩)
    · exact Or.inl h
    · exact Or.inr ⟨e, he, rfl⟩
  · rintro (h | ⟨e, he, rfl⟩)
    · exact Or.inl h
    · by_cases hek : e.1 = k
      · exact Or.inl hek
      · exact Or.inr ⟨e, ⟨he, hek⟩, rfl⟩

theorem nodup_keys_set (m : ResultMap) (k : GoString) (v : SearchResult)
    (h : (m.map Prod.fst).Nodup) : ((m.set k v).map Prod.fst).Nodup := by
  unfold ResultMap.set
  rw [List.map_cons, List.nodup_cons]
  constructor
  · simp only [List.mem_map, List.mem_filter, decide_eq_true_eq, not_exists, not_and]
    rintro e ⟨_, hek⟩ h2
    exact hek h2
  · exact h.sublist ((List.filter_sublist m).map Prod.fst)

theorem keyed_set (m : ResultMap) (r : SearchResult)
    (h : ∀ e ∈ m, e.2.DateResponse = e.1) :
    ∀ e ∈ m.set r.DateResponse r, e.2.DateResponse = e.1 := by
  intro e he
  unfold ResultMap.set at he
  rcases List.mem_cons.1 he with h1 | h1
  · rw [h1]
  · exact h e (List.mem_of_mem_filter h1)


/-! The map built by the first loop. -/

theorem lastWithDate_cons (r : SearchResult) (rest : List SearchResult) (d : GoString) :
    lastWithDate (r :: rest) d
      = (lastWithDate rest d).or (if r.DateResponse = d then some r else none) := by
  unfold lastWithDate
  rw [List.reverse_cons, List.find?_append]
  congr 1
  by_cases h : r.DateResponse = d <;> simp [h]

theorem lastWithDate_some (results : List SearchResult) (d : GoString) (r : SearchResult)
    (h : lastWithDate results d = some r) : r ∈ results ∧ r.DateResponse = d := by
  unfold lastWithDate at h
  have h1 := List.mem_of_find?_eq_some h
  have h2 := List.find?_some h
  exact ⟨List.mem_reverse.1 h1, by simpa using h2⟩

theorem lastWithDate_isSome (results : List SearchResult) (d : GoString)
    (h : d ∈ results.map (fun r => r.DateResponse)) : ∃ r, lastWithDate results d = some r := by
  obtain ⟨r, hr, hd⟩ := List.mem_map.1 h
  rcases hl : lastWithDate results d with _ | x
  · unfold lastWithDate at hl
    rw [List.find?_eq_none] at hl
    have := hl r (List.mem_reverse.2 hr)
    simp [hd] at this
  · exact ⟨x, rfl⟩

theorem foldl_set_find (results : List SearchResult) (d : GoString) :
    ∀ m : ResultMap,
      (results.foldl (fun m r => m.set r.DateResponse r) m).find? (fun e => decide (e.1 = d))
        = match lastWithDate results d with
          | some r => some (d, r)
          | none => m.find? (fun e => decide (e.1 = d)) := by
  induction results with
  | nil => intro m; simp [lastWithDate]
  | cons r rest ih =>
    intro m
    rw [List.foldl_cons, ih, lastWithDate_cons, find?_set]
    rcases lastWithDate rest d with _ | x
    · by_cases h : r.DateResponse = d
      · simp [h]
      · simp [h]
    · simp

theorem foldl_set_mem_keys (results : List SearchResult) (d : GoString) :
    ∀ m : ResultMap,
      d ∈ (results.foldl (fun m r => m.set r.DateResponse r) m).map Prod.fst
        ↔ d ∈ m.map Prod.fst ∨ d ∈ results.map (fun r => r.DateResponse) := by
  induction results with
  | nil => intro m; simp
  | cons r rest ih =>
    intro m
    rw [List.foldl_cons, ih, mem_keys_set, List.map_cons, List.mem_cons]
    constructor
    · rintro ((h | h) | h)
      · exact Or.inr (Or.inl h)
      · exact Or.inl h
      · exact Or.inr (Or.inr h)
    · rintro (h | h | h)
      · exact Or.inl (Or.inr h)
      · exact Or.inl (Or.inl h)
      · exact Or.inr h

theorem foldl_set_nodup_keys (results : List SearchResult) :
    ∀ m : ResultMap, (m.map Prod.fst).Nodup →
      ((results.foldl (fun m r => m.set r.DateResponse r) m).map Prod.fst).Nodup := by
  induction results with
  | nil => intro m h; exact h
  | cons r rest ih =>
    intro m h
    rw [List.foldl_cons]
    exact ih _ (nodup_keys_set m _ _ h)

theorem foldl_set_keyed (results : List SearchResult) :
    ∀ m : ResultMap, (∀ e ∈ m, e.2.DateResponse = e.1) →
      ∀ e ∈ results.foldl (fun m r => m.set r.DateResponse r) m, e.2.DateResponse = e.1 := by
  induction results with
  | nil => intro m h; exact h
  | cons r rest ih =>
    intro m h
    rw [List.foldl_cons]
    exact ih _ (keyed_set m r h)

theorem collectByDate_get (results : List SearchResult) (d : GoString) (r : SearchResult)
    (h : lastWithDate results d = some r) : (collectByDate results).get d = r := by
  unfold ResultMap.get collectByDate
  rw [foldl_set_find, h]

theorem collectByDate_mem_keys (results : List SearchResult) (d : GoString) :
    d ∈ (collectByDate results).map Prod.fst ↔ d ∈ results.map (fun r => r.DateResponse) := by
  unfold collectByDate
  rw [foldl_set_mem_keys]
  simp

theorem collectByDate_nodup_keys (results : List SearchResult) :
    ((collectByDate results).map Prod.fst).Nodup :=
  foldl_set_nodup_keys results [] (by simp)

/-- The sorted keys are the keys of the map, whatever the order of `range`. -/
theorem sortedKeys_perm (rangeOrder : ResultMap → ResultMap)
    (hrange : ∀ m, (rangeOrder m).Perm m) (results : List SearchResult) :
    (sortedKeys rangeOrder (collectByDate results)).Perm
      ((collectByDate results).map Prod.fst) := by
  unfold sortedKeys
  refine (sortStrings_perm _).trans ?_
  have hk : (rangeOrder (collectByDate results)).map (fun e => e.2.DateResponse)
      = (rangeOrder (collectByDate results)).map Prod.fst := by
    apply List.map_congr_left
    intro e he
    exact foldl_set_keyed results [] (by simp) e ((hrange _).mem_iff.1 he)
  rw [hk]
  exact (hrange _).map Prod.fst

theorem printedResults_dates (rangeOrder : ResultMap → ResultMap)
    (hrange : ∀ m, (rangeOrder m).Perm m) (response : SearchResponse) :
    (printedResults rangeOrder response).map (fun r => r.DateResponse)
      = sortedKeys rangeOrder (collectByDate response.Results) := by
  unfold printedResults
  rw [List.map_map]
  conv => rhs; rw [← List.map_id (sortedKeys rangeOrder (collectByDate response.Results))]
  apply List.map_congr_left
  intro k hk
  have hk2 := (collectByDate_mem_keys _ _).1 ((sortedKeys_perm rangeOrder hrange _).mem_iff.1 hk)
  obtain ⟨r, hr⟩ := lastWithDate_isSome _ _ hk2
  simp only [Function.comp, id]
  rw [collectByDate_get _ _ _ hr]
  exact (lastWithDate_some _ _ _ hr).2


theorem length_eq_iff_nodup_of_same_elems (keys dates : List GoString) (hk : keys.Nodup)
    (hmem : ∀ d, d ∈ keys ↔ d ∈ dates) : keys.length = dates.length ↔ dates.Nodup := by
  have hperm : keys.Perm dates.dedup :=
    (List.perm_ext_iff_of_nodup hk (List.nodup_dedup dates)).2
      (fun d => by rw [hmem d, List.mem_dedup])
  rw [hperm.length_eq]
  constructor
  · intro h
    have := (List.dedup_sublist dates).eq_of_length h
    rw [← this]
    exact List.nodup_dedup dates
  · intro h
    rw [h.dedup]

/-- C15: for a search response whose result count is not `0`, `search` prints the lines
of `printedResults` and does not exit; the dates of the printed results are strictly
increasing in the bytewise order of strings, so each date is printed once; the dates
printed are exactly the dates that occur among the results; the result printed for a
date is the last one of that date in response order; and the number of printed lines
equals the number of results exactly when all dates are distinct.  This holds for every
order in which `range` may visit the map. -/
theorem search_one_line_per_date (rangeOrder : ResultMap → ResultMap)
    (hrange : ∀ m, (rangeOrder m).Perm m) (response : SearchResponse)
    (hcount : response.ResultCount ≠ ascii "0") :
    search rangeOrder (.ok response)
        = ⟨(printedResults rangeOrder response).map (fun r => .line (formatResult r)), none⟩
      ∧ List.Pairwise stringLT
          ((printedResults rangeOrder response).map (fun r => r.DateResponse))
      ∧ (∀ d, d ∈ (printedResults rangeOrder response).map (fun r => r.DateResponse)
            ↔ d ∈ response.Results.map (fun r => r.DateResponse))
      ∧ (∀ r ∈ printedResults rangeOrder response,
            lastWithDate response.Results r.DateResponse = some r)
      ∧ ((search rangeOrder (.ok response)).out.length = response.Results.length
            ↔ (response.Results.map (fun r => r.DateResponse)).Nodup) := by
  have hsearch : search rangeOrder (.ok response)
      = ⟨(printedResults rangeOrder response).map (fun r => .line (formatResult r)), none⟩ := by
    simp [search, hcount]
  have hdates := printedResults_dates rangeOrder hrange response
  have hperm := sortedKeys_perm rangeOrder hrange response.Results
  have hnodup : (sortedKeys rangeOrder (collectByDate response.Results)).Nodup :=
    hperm.nodup_iff.2 (collectByDate_nodup_keys response.Results)
  have hmem : ∀ d, d ∈ sortedKeys rangeOrder (collectByDate response.Results)
      ↔ d ∈ response.Results.map (fun r => r.DateResponse) := by
    intro d
    rw [hperm.mem_iff, collectByDate_mem_keys]
  refine ⟨hsearch, ?_, ?_, ?_, ?_⟩
  · rw [hdates]
    have hk : ((rangeOrder (collectByDate response.Results)).map
        (fun e => e.2.DateResponse)).Nodup := by
      have h2 := hnodup
      unfold sortedKeys at h2
      exact (sortStrings_perm _).nodup_iff.1 h2
    unfold sortedKeys
    exact sortStrings_strict _ hk
  · intro d
    rw [hdates]
    exact hmem d
  · intro r hr
    unfold printedResults at hr
    obtain ⟨k, hk, rfl⟩ := List.mem_map.1 hr
    obtain ⟨x, hx⟩ := lastWithDate_isSome _ _ ((hmem k).1 hk)
    rw [collectByDate_get _ _ _ hx, (lastWithDate_some _ _ _ hx).2]
    exact hx
  · rw [hsearch]
    simp only [List.length_map]
    have hl : (printedResults rangeOrder response).length
        = (sortedKeys rangeOrder (collectByDate response.Results)).length := by
      rw [← hdates, List.length_map]
    have hl2 : response.Results.length
        = (response.Results.map (fun r => r.DateResponse)).length := by
      rw [List.length_map]
    rw [hl, hl2]
    exact length_eq_iff_nodup_of_same_elems _ _ hnodup hmem

theorem search_one_line_per_date_witness :
    (search List.reverse (.ok ⟨[⟨ascii "b", ascii "2014", [], []⟩,
        ⟨ascii "a", ascii "2013", ascii "yes", []⟩,
        ⟨ascii "c", ascii "2014", [], ascii "yes"⟩], ascii "3", [], []⟩)).out
      = [.line (ascii "[2013] a [NFO]" ++ [0x0A]), .line (ascii "[2014] c [SRS]" ++ [0x0A])]
    ∧ search List.reverse (.ok ⟨[⟨ascii "b", ascii "2014", [], []⟩,
        ⟨ascii "a", ascii "2013", ascii "yes", []⟩,
        ⟨ascii "c", ascii "2014", [], ascii "yes"⟩], ascii "3", [], []⟩)
      = ⟨(printedResults List.reverse ⟨[⟨ascii "b", ascii "2014", [], []⟩,
        ⟨ascii "a", ascii "2013", ascii "yes", []⟩,
        ⟨ascii "c", ascii "2014", [], ascii "yes"⟩], ascii "3", [], []⟩).map
          (fun r => .line (formatResult r)), none⟩ :=
  ⟨by decide,
   (search_one_line_per_date List.reverse (fun m => List.reverse_perm m)
      ⟨[⟨ascii "b", ascii "2014", [], []⟩, ⟨ascii "a", ascii "2013", ascii "yes", []⟩,
        ⟨ascii "c", ascii "2014", [], ascii "yes"⟩], ascii "3", [], []⟩ (by decide)).1⟩

end Srrdb
